import Mathlib

/-!
# Verification of the easyagent-dev/agent tool-calling agent runtime

Shallow embedding of the core of the `agent` Go package:

* the JSON value model used on the wire (`Json`), with a canonical
  serializer and a streaming-tolerant parser.  The parser models the
  external `github.com/easyagent-dev/streamjson` incremental parser and
  the Go standard library `encoding/json` unmarshalling, which are not
  part of this repository; their behaviour is modelled from the spec
  (section 4.4) and from the Go standard library contract.
* `ToolCallJsonParser` (src/tool_call_json_parser.go),
* the tool registry (src/tool_registry.go),
* the Complete-Task tool (src/complete_task_tool.go),
* the agent context accessors (src/context.go),
* the blocking JSON runner (src/json_completion_runner.go) and the
  streaming JSON runner (src/json_completion_stream_runner.go),
  embedded as pure step functions over an explicit run state, with the
  language model supplied as an oracle script.

Modelling conventions:

* Go strings are Lean `String`s in runner-land; inside the JSON model a
  string is its list of characters (`List Char`).
* machine integers index nothing here, so `Nat`/`Int` are used directly.
* `uuid.New().String()` (external library) is modelled by a freshness
  counter: the n-th generated identifier is the token `some n`; a Go
  zero-value (empty) identifier is `none`.  The uuid library's contract
  is that generated identifiers never collide, which the counter has.
* wall-clock instants (`StartAt`/`EndAt`) and token-usage/cost
  aggregation are not observable by any claim and are omitted from the
  embedded state.
* the cancellation token is modelled as never cancelled: no claim in
  scope mentions cancellation.
* fallible Go calls return `Except`; the distinct `fmt.Errorf` format
  strings used by the runner for fatal errors are modelled by the
  constructors of `RunError` (each constructor corresponds to exactly
  one format string in the source).
-/

/-! ## JSON values

JSON values as a mutual inductive (arrays and objects carry their own
spine so that all functions below are plain structural recursions).
Numbers are modelled as integers; floating-point numbers are outside the
model.  Object fields keep their order and may repeat, as in the wire
format; `encoding/json` semantics (last key wins) is in `lookupLast`.
-/

mutual
inductive Json where
  | null : Json
  | bool (b : Bool) : Json
  | num (n : Int) : Json
  | str (s : List Char) : Json
  | arr (elems : JsonList) : Json
  | obj (fields : JsonFields) : Json
  deriving DecidableEq

inductive JsonList where
  | nil : JsonList
  | cons (hd : Json) (tl : JsonList) : JsonList
  deriving DecidableEq

inductive JsonFields where
  | nil : JsonFields
  | cons (key : List Char) (val : Json) (tl : JsonFields) : JsonFields
  deriving DecidableEq
end

/-- Last-wins field lookup, as in `encoding/json` (later duplicate keys
overwrite earlier ones). -/
def JsonFields.lookupLast : JsonFields → List Char → Option Json
  | .nil, _ => none
  | .cons k v tl, key =>
    match JsonFields.lookupLast tl key with
    | some w => some w
    | none => if k = key then some v else none

/-! ## Canonical serialization

The serialized form of a JSON value: minimal (no whitespace), strings
escape the quote and the backslash.  This models the output of
`json.Marshal` up to key order and escaping of control characters,
which no claim observes. -/

/-- Escape a string body: quote and backslash get a leading backslash. -/
def escapeChars : List Char → List Char
  | [] => []
  | c :: r =>
    if c = '"' || c = '\\' then '\\' :: c :: escapeChars r
    else c :: escapeChars r

/-- Serialized string literal: quoted, escaped body. -/
def serStr (s : List Char) : List Char :=
  '"' :: (escapeChars s ++ ['"'])

/-- Character for a decimal digit value. -/
def digitCh (d : Nat) : Char := Char.ofNat (48 + d)

/-- Decimal digits of a natural number, most-significant first. -/
def serNat (n : Nat) : List Char :=
  if n = 0 then ['0'] else ((Nat.digits 10 n).map digitCh).reverse

/-- Serialized integer (optional leading minus sign). -/
def serInt (n : Int) : List Char :=
  match n with
  | .ofNat m => serNat m
  | .negSucc m => '-' :: serNat (m + 1)

mutual
/-- Canonical serialization of a JSON value. -/
def Json.ser : Json → List Char
  | .null => 'n' :: ['u', 'l', 'l']
  | .bool true => 't' :: ['r', 'u', 'e']
  | .bool false => 'f' :: ['a', 'l', 's', 'e']
  | .num n => serInt n
  | .str s => serStr s
  | .arr xs => '[' :: (JsonList.serElems xs ++ [']'])
  | .obj fs => '{' :: (JsonFields.serFields fs ++ ['}'])

/-- Comma-separated serialization of array elements. -/
def JsonList.serElems : JsonList → List Char
  | .nil => []
  | .cons x .nil => x.ser
  | .cons x (.cons y tl) => x.ser ++ ',' :: JsonList.serElems (.cons y tl)

/-- Comma-separated serialization of object fields. -/
def JsonFields.serFields : JsonFields → List Char
  | .nil => []
  | .cons k v .nil => serStr k ++ ':' :: v.ser
  | .cons k v (.cons k2 v2 tl) =>
      serStr k ++ ':' :: v.ser ++ ',' :: JsonFields.serFields (.cons k2 v2 tl)
end

/-! ## Streaming-tolerant JSON parsing

Modelled from the spec: the `streamjson.StreamJSONParser` used by
src/tool_call_json_parser.go lives in the external repository
`github.com/easyagent-dev/streamjson` and is not under src/.  Per spec
section 4.4 it maintains an incremental AST over the buffered input:
`is-complete()` is true once the buffered input forms a complete JSON
value, and `get(path)` returns the current tentative value at a
top-level field, with completed scalar fields and partially-built
objects visible.  The parser below realizes that contract: on a full
value it returns the value and the unread remainder; on a prefix of a
value it returns the tentative partial value built from the fields seen
so far. -/

/-- Is this character JSON whitespace? -/
def isWsCh (c : Char) : Bool :=
  c = ' ' || c = '\n' || c = '\t' || c = '\r'

/-- Drop leading JSON whitespace. -/
def skipWs : List Char → List Char
  | [] => []
  | c :: r => if isWsCh c then skipWs r else c :: r

/-- Result of reading a string body after the opening quote. -/
inductive SRes where
  | sdone (s : List Char) (rest : List Char) : SRes
  | smore : SRes

/-- Interpret a backslash escape (the serializer only emits the first
two; the rest mirror the common JSON escapes, other characters map to
themselves). -/
def unescCh (c : Char) : Char :=
  if c = 'n' then '\n'
  else if c = 't' then '\t'
  else if c = 'r' then '\r'
  else c

/-- Prepend a character to a string-body result. -/
def srCons (c : Char) : SRes → SRes
  | .sdone s rest => .sdone (c :: s) rest
  | .smore => .smore

/-- Read a string body up to the closing quote; `esc` records whether
the previous character was an unconsumed backslash.  Returns `smore`
when the input ends before the string closes. -/
def readStrAux : Bool → List Char → SRes
  | _, [] => .smore
  | true, e :: r => srCons (unescCh e) (readStrAux false r)
  | false, c :: r =>
    if c = '"' then .sdone [] r
    else if c = '\\' then readStrAux true r
    else srCons c (readStrAux false r)

/-- Read a string body after the opening quote, handling escapes. -/
def readStrBody (l : List Char) : SRes := readStrAux false l

/-- Split off the maximal run of leading decimal digits. -/
def takeDigits : List Char → List Char × List Char
  | [] => ([], [])
  | c :: r =>
    if c.isDigit then
      let p := takeDigits r
      (c :: p.1, p.2)
    else ([], c :: r)

/-- Numeric value of a big-endian digit string. -/
def digitsVal (ds : List Char) : Nat :=
  Nat.ofDigits 10 (ds.reverse.map fun c => c.toNat - 48)

/-- Result of matching a fixed literal (the tails of `null`, `true`,
`false`). -/
inductive LRes where
  | hit (rest : List Char) : LRes
  | needMore : LRes
  | nope : LRes

/-- Match a literal character by character. -/
def stripLit : List Char → List Char → LRes
  | [], rest => .hit rest
  | _ :: _, [] => .needMore
  | l :: ls, c :: cs => if c = l then stripLit ls cs else .nope

/-- Result of parsing one JSON value from a character stream. -/
inductive PRes where
  | done (v : Json) (rest : List Char) : PRes
  | more (partialVal : Option Json) : PRes
  | bad : PRes

/-- Result of parsing the fields of an object whose brace is open. -/
inductive FRes where
  | done (fs : JsonFields) (rest : List Char) : FRes
  | more (fs : JsonFields) : FRes
  | bad : FRes

/-- Result of parsing the elements of an array whose bracket is open. -/
inductive ERes where
  | done (xs : JsonList) (rest : List Char) : ERes
  | more (xs : JsonList) : ERes
  | bad : ERes

mutual
/-- Parse one JSON value.  `fuel` bounds the nesting; every recursive
descent decreases it by one.  On exhausted input mid-value, `more`
carries the tentative value built so far (objects and arrays expose the
fields and elements whose parses finished; a dangling scalar is not yet
visible, as in the incremental AST of the streaming parser). -/
def parseVal : Nat → List Char → PRes
  | 0, _ => .bad
  | fuel + 1, cs =>
    match skipWs cs with
    | [] => .more none
    | c :: r =>
      if c = 'n' then
        match stripLit ['u', 'l', 'l'] r with
        | .hit rest => .done .null rest
        | .needMore => .more none
        | .nope => .bad
      else if c = 't' then
        match stripLit ['r', 'u', 'e'] r with
        | .hit rest => .done (.bool true) rest
        | .needMore => .more none
        | .nope => .bad
      else if c = 'f' then
        match stripLit ['a', 'l', 's', 'e'] r with
        | .hit rest => .done (.bool false) rest
        | .needMore => .more none
        | .nope => .bad
      else if c = '"' then
        match readStrBody r with
        | .sdone s rest => .done (.str s) rest
        | .smore => .more none
      else if c = '-' then
        match takeDigits r with
        | ([], []) => .more none
        | ([], _ :: _) => .bad
        | (_ :: _, []) => .more none
        | (d :: ds, e :: rest) => .done (.num (-(digitsVal (d :: ds) : Int))) (e :: rest)
      else if c.isDigit then
        match takeDigits (c :: r) with
        | (_, []) => .more none
        | (ds, e :: rest) => .done (.num (digitsVal ds : Int)) (e :: rest)
      else if c = '{' then
        match skipWs r with
        | '}' :: rest => .done (.obj .nil) rest
        | r2 =>
          match parseFields fuel r2 with
          | .done fs rest => .done (.obj fs) rest
          | .more fs => .more (some (.obj fs))
          | .bad => .bad
      else if c = '[' then
        match skipWs r with
        | ']' :: rest => .done (.arr .nil) rest
        | r2 =>
          match parseElems fuel r2 with
          | .done xs rest => .done (.arr xs) rest
          | .more xs => .more (some (.arr xs))
          | .bad => .bad
      else .bad

/-- Parse the (nonempty) field list of an object: a quoted key, a
colon, a value, then a comma and further fields or a closing brace.
`more` carries the fields whose values finished parsing. -/
def parseFields : Nat → List Char → FRes
  | 0, _ => .bad
  | fuel + 1, cs =>
    match skipWs cs with
    | [] => .more .nil
    | c :: r =>
      if c = '"' then
        match readStrBody r with
        | .smore => .more .nil
        | .sdone k r1 =>
          match skipWs r1 with
          | [] => .more .nil
          | c1 :: r2 =>
            if c1 = ':' then
              match parseVal fuel r2 with
              | .done v r3 =>
                match skipWs r3 with
                | [] => .more (.cons k v .nil)
                | c2 :: r4 =>
                  if c2 = ',' then
                    match parseFields fuel r4 with
                    | .done fs rest => .done (.cons k v fs) rest
                    | .more fs => .more (.cons k v fs)
                    | .bad => .bad
                  else if c2 = '}' then .done (.cons k v .nil) r4
                  else .bad
              | .more (some sv) => .more (.cons k sv .nil)
              | .more none => .more .nil
              | .bad => .bad
            else .bad
      else .bad

/-- Parse the (nonempty) element list of an array. -/
def parseElems : Nat → List Char → ERes
  | 0, _ => .bad
  | fuel + 1, cs =>
    match parseVal fuel cs with
    | .done v r =>
      match skipWs r with
      | [] => .more (.cons v .nil)
      | c :: r2 =>
        if c = ',' then
          match parseElems fuel r2 with
          | .done xs rest => .done (.cons v xs) rest
          | .more xs => .more (.cons v xs)
          | .bad => .bad
        else if c = ']' then .done (.cons v .nil) r2
        else .bad
    | .more (some sv) => .more (.cons sv .nil)
    | .more none => .more .nil
    | .bad => .bad
end

/-! ## Round-trip: the parser inverts the serializer

Size measures bounding the fuel the parser needs. -/

mutual
/-- Nesting-aware size of a JSON value. -/
def jsize : Json → Nat
  | .bool _ => 1
  | .null => 1
  | .str _ => 1
  | .num _ => 1
  | .arr xs => lsize xs + 1
  | .obj fs => fsize fs + 1

/-- Size of an array spine. -/
def lsize : JsonList → Nat
  | .nil => 0
  | .cons x tl => jsize x + lsize tl + 1

/-- Size of an object spine. -/
def fsize : JsonFields → Nat
  | .nil => 0
  | .cons _ v tl => jsize v + fsize tl + 1
end

theorem skipWs_not_ws {c : Char} (r : List Char) (h : isWsCh c = false) :
    skipWs (c :: r) = c :: r := by
  simp [skipWs, h]

theorem readStrBody_escape (s : List Char) (rest : List Char) :
    readStrBody (escapeChars s ++ '"' :: rest) = .sdone s rest := by
  induction s with
  | nil => rfl
  | cons c r ih =>
    by_cases hq : c = '"'
    · subst hq
      have h1 : readStrBody (escapeChars ('"' :: r) ++ '"' :: rest)
          = srCons '"' (readStrBody (escapeChars r ++ '"' :: rest)) := rfl
      rw [h1, ih]
      rfl
    · by_cases hb : c = '\\'
      · subst hb
        have h1 : readStrBody (escapeChars ('\\' :: r) ++ '"' :: rest)
            = srCons '\\' (readStrBody (escapeChars r ++ '"' :: rest)) := rfl
        rw [h1, ih]
        rfl
      · have hcond : (decide (c = '"') || decide (c = '\\')) = false := by
          simp [hq, hb]
        show readStrAux false (escapeChars (c :: r) ++ '"' :: rest) = _
        rw [escapeChars, hcond]
        simp only [Bool.false_eq_true, if_false, List.cons_append]
        rw [readStrAux, if_neg hq, if_neg hb]
        show srCons c (readStrBody (escapeChars r ++ '"' :: rest)) = _
        rw [ih]
        rfl

theorem digit_notCh {c : Char} (h : c.isDigit = true) :
    c ≠ 'n' ∧ c ≠ 't' ∧ c ≠ 'f' ∧ c ≠ '"' ∧ c ≠ '-' ∧ c ≠ '{' ∧ c ≠ '[' ∧
      c ≠ ']' ∧ c ≠ '}' ∧ isWsCh c = false := by
  have hne : ∀ d : Char, d.isDigit = false → c ≠ d := by
    intro d hd he
    subst he
    rw [h] at hd
    exact absurd hd (by simp)
  have h1 : c ≠ ' ' := hne ' ' (by decide)
  have h2 : c ≠ '\n' := hne '\n' (by decide)
  have h3 : c ≠ '\t' := hne '\t' (by decide)
  have h4 : c ≠ '\r' := hne '\r' (by decide)
  refine ⟨hne 'n' (by decide), hne 't' (by decide), hne 'f' (by decide),
    hne '"' (by decide), hne '-' (by decide), hne '{' (by decide),
    hne '[' (by decide), hne ']' (by decide), hne '}' (by decide), ?_⟩
  simp [isWsCh, h1, h2, h3, h4]

theorem takeDigits_append {ds : List Char} (hds : ∀ c ∈ ds, c.isDigit = true)
    {e : Char} (he : e.isDigit = false) (r : List Char) :
    takeDigits (ds ++ e :: r) = (ds, e :: r) := by
  induction ds with
  | nil => simp [takeDigits, he]
  | cons d tl ih =>
    have hd : d.isDigit = true := hds d (by simp)
    have htl : ∀ c ∈ tl, c.isDigit = true := fun c hc => hds c (by simp [hc])
    simp [takeDigits, hd, ih htl]

theorem digitCh_isDigit {d : Nat} (h : d < 10) : (digitCh d).isDigit = true := by
  interval_cases d <;> decide

theorem digitCh_val {d : Nat} (h : d < 10) : (digitCh d).toNat - 48 = d := by
  interval_cases d <;> decide

theorem serNat_ne_nil (n : Nat) : serNat n ≠ [] := by
  by_cases h : n = 0
  · subst h; simp [serNat]
  · simp only [serNat, if_neg h]
    intro hc
    have hne := (Nat.digits_ne_nil_iff_ne_zero (b := 10)).mpr h
    simp only [List.reverse_eq_nil_iff, List.map_eq_nil_iff] at hc
    exact hne hc

theorem serNat_all_digits (n : Nat) : ∀ c ∈ serNat n, c.isDigit = true := by
  by_cases h : n = 0
  · subst h; simp [serNat]
  · simp only [serNat, if_neg h]
    intro c hc
    simp only [List.mem_reverse, List.mem_map] at hc
    obtain ⟨d, hd, rfl⟩ := hc
    exact digitCh_isDigit (Nat.digits_lt_base (by norm_num) hd)

theorem mapDigitCh_inv {l : List Nat} (hl : ∀ d ∈ l, d < 10) :
    (l.map digitCh).map (fun c => c.toNat - 48) = l := by
  induction l with
  | nil => rfl
  | cons a t ih =>
    have ha : a < 10 := hl a (by simp)
    have ht : ∀ d ∈ t, d < 10 := fun d hd => hl d (by simp [hd])
    simp [digitCh_val ha, ih ht]

theorem digitsVal_serNat (n : Nat) : digitsVal (serNat n) = n := by
  by_cases h : n = 0
  · subst h
    simp [serNat, digitsVal, Nat.ofDigits]
  · simp only [serNat, if_neg h, digitsVal, List.reverse_reverse]
    have hlt : ∀ d ∈ Nat.digits 10 n, d < 10 :=
      fun d hd => Nat.digits_lt_base (by norm_num) hd
    rw [mapDigitCh_inv hlt, Nat.ofDigits_digits]

/-! Unfolding lemmas for `parseVal` on each head shape. -/

theorem pvQuote (f : Nat) (X : List Char) :
    parseVal (f + 1) ('"' :: X)
      = (match readStrBody X with
         | .sdone s rest => PRes.done (.str s) rest
         | .smore => PRes.more none) := rfl

theorem pvNull (f : Nat) (X : List Char) :
    parseVal (f + 1) ('n' :: X)
      = (match stripLit ['u', 'l', 'l'] X with
         | .hit rest => PRes.done .null rest
         | .needMore => PRes.more none
         | .nope => PRes.bad) := rfl

theorem pvNeg (f : Nat) (X : List Char) :
    parseVal (f + 1) ('-' :: X)
      = (match takeDigits X with
         | ([], []) => PRes.more none
         | ([], _ :: _) => PRes.bad
         | (_ :: _, []) => PRes.more none
         | (d :: ds, e :: rest) =>
             PRes.done (.num (-(digitsVal (d :: ds) : Int))) (e :: rest)) := rfl

theorem pvLbrace (f : Nat) (X : List Char) :
    parseVal (f + 1) ('{' :: X)
      = (match skipWs X with
         | '}' :: rest => PRes.done (.obj .nil) rest
         | r2 =>
           match parseFields f r2 with
           | .done fs rest => PRes.done (.obj fs) rest
           | .more fs => PRes.more (some (.obj fs))
           | .bad => PRes.bad) := rfl

theorem pvLbrack (f : Nat) (X : List Char) :
    parseVal (f + 1) ('[' :: X)
      = (match skipWs X with
         | ']' :: rest => PRes.done (.arr .nil) rest
         | r2 =>
           match parseElems f r2 with
           | .done xs rest => PRes.done (.arr xs) rest
           | .more xs => PRes.more (some (.arr xs))
           | .bad => PRes.bad) := rfl

theorem pvDigit (f : Nat) {c : Char} (hc : c.isDigit = true) (X : List Char) :
    parseVal (f + 1) (c :: X)
      = (match takeDigits (c :: X) with
         | (_, []) => PRes.more none
         | (ds, e :: rest) => PRes.done (.num (digitsVal ds : Int)) (e :: rest)) := by
  obtain ⟨hn, ht, hf2, hq, hm, hbrace, hbrack, _, _, hws⟩ := digit_notCh hc
  rw [parseVal, skipWs_not_ws X hws]
  simp only [if_neg hn, if_neg ht, if_neg hf2, if_neg hq, if_neg hm, hc,
    if_neg hbrace, if_neg hbrack, if_true]

theorem pfQuote (f : Nat) (X : List Char) :
    parseFields (f + 1) ('"' :: X)
      = (match readStrBody X with
         | .smore => FRes.more .nil
         | .sdone k r1 =>
           match skipWs r1 with
           | [] => FRes.more .nil
           | c1 :: r2 =>
             if c1 = ':' then
               match parseVal f r2 with
               | .done v r3 =>
                 match skipWs r3 with
                 | [] => FRes.more (.cons k v .nil)
                 | c2 :: r4 =>
                   if c2 = ',' then
                     match parseFields f r4 with
                     | .done fs rest => FRes.done (.cons k v fs) rest
                     | .more fs => FRes.more (.cons k v fs)
                     | .bad => FRes.bad
                   else if c2 = '}' then FRes.done (.cons k v .nil) r4
                   else FRes.bad
               | .more (some sv) => FRes.more (.cons k sv .nil)
               | .more none => FRes.more .nil
               | .bad => FRes.bad
             else FRes.bad) := rfl

theorem peStep (f : Nat) (cs : List Char) :
    parseElems (f + 1) cs
      = (match parseVal f cs with
         | .done v r =>
           match skipWs r with
           | [] => ERes.more (.cons v .nil)
           | c :: r2 =>
             if c = ',' then
               match parseElems f r2 with
               | .done xs rest => ERes.done (.cons v xs) rest
               | .more xs => ERes.more (.cons v xs)
               | .bad => ERes.bad
             else if c = ']' then ERes.done (.cons v .nil) r2
             else ERes.bad
         | .more (some sv) => ERes.more (.cons sv .nil)
         | .more none => ERes.more .nil
         | .bad => ERes.bad) := rfl

theorem jsize_pos (v : Json) : 1 ≤ jsize v := by
  cases v <;> simp [jsize]

/-- Every serialized value starts with a character that is neither
whitespace nor a closing bracket or brace. -/
theorem ser_head (v : Json) :
    ∃ h t, Json.ser v = h :: t ∧ isWsCh h = false ∧ h ≠ ']' ∧ h ≠ '}' := by
  cases v <;>
    first
      | exact ⟨_, _, rfl, by decide, by decide, by decide⟩
      | skip
  case bool b =>
    cases b <;> exact ⟨_, _, rfl, by decide, by decide, by decide⟩
  case num n =>
    cases n with
    | ofNat m =>
      obtain ⟨d, ds, hsm⟩ : ∃ d ds, serNat m = d :: ds := by
        cases hsm : serNat m with
        | nil => exact absurd hsm (serNat_ne_nil m)
        | cons d ds => exact ⟨d, ds, rfl⟩
      have hd : d.isDigit = true := serNat_all_digits m d (by rw [hsm]; simp)
      obtain ⟨_, _, _, _, _, _, _, hrb, hrc, hws⟩ := digit_notCh hd
      exact ⟨d, ds, by show serNat m = _; rw [hsm], hws, hrb, hrc⟩
    | negSucc m => exact ⟨'-', _, rfl, by decide, by decide, by decide⟩

mutual
/-- Round trip: parsing the serialization of a value, followed by a
non-digit character, consumes exactly the serialization. -/
theorem rtVal : ∀ (v : Json) (fuel : Nat) (c : Char) (r : List Char),
    jsize v ≤ fuel → c.isDigit = false →
    parseVal fuel (Json.ser v ++ c :: r) = .done v (c :: r)
  | .null, fuel, c, r, hfu, _ => by
    obtain ⟨f, rfl⟩ : ∃ g, fuel = g + 1 := ⟨fuel - 1, by simp [jsize] at hfu; omega⟩
    rfl
  | .bool true, fuel, c, r, hfu, _ => by
    obtain ⟨f, rfl⟩ : ∃ g, fuel = g + 1 := ⟨fuel - 1, by simp [jsize] at hfu; omega⟩
    rfl
  | .bool false, fuel, c, r, hfu, _ => by
    obtain ⟨f, rfl⟩ : ∃ g, fuel = g + 1 := ⟨fuel - 1, by simp [jsize] at hfu; omega⟩
    rfl
  | .str s, fuel, c, r, hfu, _ => by
    obtain ⟨f, rfl⟩ : ∃ g, fuel = g + 1 := ⟨fuel - 1, by simp [jsize] at hfu; omega⟩
    show parseVal (f + 1) (('"' :: (escapeChars s ++ ['"'])) ++ c :: r) = _
    simp only [List.append_assoc, List.cons_append, List.singleton_append]
    rw [pvQuote, readStrBody_escape]
    simp
  | .num (.ofNat m), fuel, c, r, hfu, hc => by
    obtain ⟨f, rfl⟩ : ∃ g, fuel = g + 1 := ⟨fuel - 1, by simp [jsize] at hfu; omega⟩
    obtain ⟨d, ds, hsm⟩ : ∃ d ds, serNat m = d :: ds := by
      cases hsm : serNat m with
      | nil => exact absurd hsm (serNat_ne_nil m)
      | cons d ds => exact ⟨d, ds, rfl⟩
    have hd : d.isDigit = true := serNat_all_digits m d (by rw [hsm]; simp)
    show parseVal (f + 1) (serNat m ++ c :: r) = _
    rw [hsm, List.cons_append, pvDigit f hd, ← List.cons_append, ← hsm,
      takeDigits_append (serNat_all_digits m) hc r]
    simp only []
    rw [digitsVal_serNat]
    rfl
  | .num (.negSucc m), fuel, c, r, hfu, hc => by
    obtain ⟨f, rfl⟩ : ∃ g, fuel = g + 1 := ⟨fuel - 1, by simp [jsize] at hfu; omega⟩
    obtain ⟨d, ds, hsm⟩ : ∃ d ds, serNat (m + 1) = d :: ds := by
      cases hsm : serNat (m + 1) with
      | nil => exact absurd hsm (serNat_ne_nil (m + 1))
      | cons d ds => exact ⟨d, ds, rfl⟩
    show parseVal (f + 1) ('-' :: (serNat (m + 1) ++ c :: r)) = _
    rw [pvNeg, takeDigits_append (serNat_all_digits (m + 1)) hc r, hsm]
    simp only []
    rw [← hsm, digitsVal_serNat]
    norm_num [Int.negSucc_eq]
  | .arr .nil, fuel, c, r, hfu, _ => by
    obtain ⟨f, rfl⟩ : ∃ g, fuel = g + 1 := ⟨fuel - 1, by simp [jsize] at hfu; omega⟩
    rfl
  | .arr (.cons x tl), fuel, c, r, hfu, hc => by
    obtain ⟨f, rfl⟩ : ∃ g, fuel = g + 1 := ⟨fuel - 1, by simp [jsize] at hfu; omega⟩
    have hfu2 : lsize (JsonList.cons x tl) ≤ f := by
      simp only [jsize] at hfu; omega
    show parseVal (f + 1)
        ('[' :: ((JsonList.serElems (.cons x tl) ++ [']']) ++ c :: r)) = _
    rw [List.append_assoc, List.singleton_append, pvLbrack]
    obtain ⟨h, t, hser, hws, hrb, _⟩ := ser_head x
    have hhead : ∃ T, JsonList.serElems (.cons x tl) ++ ']' :: c :: r = h :: T := by
      cases tl with
      | nil =>
        refine ⟨t ++ ']' :: c :: r, ?_⟩
        show Json.ser x ++ ']' :: c :: r = _
        rw [hser]
        simp [List.append_assoc]
      | cons y tl2 =>
        refine ⟨t ++ ',' :: (JsonList.serElems (.cons y tl2) ++ ']' :: c :: r), ?_⟩
        show (Json.ser x ++ ',' :: JsonList.serElems (.cons y tl2)) ++ ']' :: c :: r = _
        rw [hser]
        simp [List.append_assoc]
    obtain ⟨T, hT⟩ := hhead
    rw [hT, skipWs_not_ws T hws]
    split
    · next rest heq =>
      exfalso
      simp only [List.cons.injEq] at heq
      exact hrb heq.1
    · next r2 hne2 =>
      rw [← hT, rtElems x tl f (c :: r) hfu2]
  | .obj .nil, fuel, c, r, hfu, _ => by
    obtain ⟨f, rfl⟩ : ∃ g, fuel = g + 1 := ⟨fuel - 1, by simp [jsize] at hfu; omega⟩
    rfl
  | .obj (.cons k v tl), fuel, c, r, hfu, hc => by
    obtain ⟨f, rfl⟩ : ∃ g, fuel = g + 1 := ⟨fuel - 1, by simp [jsize] at hfu; omega⟩
    have hfu2 : fsize (JsonFields.cons k v tl) ≤ f := by
      simp only [jsize] at hfu; omega
    show parseVal (f + 1)
        ('{' :: ((JsonFields.serFields (.cons k v tl) ++ ['}']) ++ c :: r)) = _
    rw [List.append_assoc, List.singleton_append, pvLbrace]
    have hhead : ∃ T, JsonFields.serFields (.cons k v tl) ++ '}' :: c :: r
        = '"' :: T := by
      cases tl with
      | nil =>
        refine ⟨escapeChars k ++ '"' :: ':' :: (Json.ser v ++ '}' :: c :: r), ?_⟩
        show (('"' :: (escapeChars k ++ ['"'])) ++ ':' :: Json.ser v) ++ '}' :: c :: r = _
        simp [List.append_assoc]
      | cons k2 v2 tl2 =>
        refine ⟨escapeChars k ++ '"' :: ':'
          :: (Json.ser v ++ ',' :: (JsonFields.serFields (.cons k2 v2 tl2)
              ++ '}' :: c :: r)), ?_⟩
        show (('"' :: (escapeChars k ++ ['"']))
            ++ ':' :: Json.ser v ++ ',' :: JsonFields.serFields (.cons k2 v2 tl2))
            ++ '}' :: c :: r = _
        simp [List.append_assoc]
    obtain ⟨T, hT⟩ := hhead
    rw [hT, skipWs_not_ws T (by decide)]
    split
    · next rest heq =>
      exfalso
      simp only [List.cons.injEq] at heq
      exact absurd heq.1 (by decide)
    · next r2 hne2 =>
      rw [← hT, rtFields k v tl f (c :: r) hfu2]
termination_by v _ _ _ _ _ => sizeOf v

/-- Round trip for a nonempty object field list followed by the closing
brace. -/
theorem rtFields : ∀ (k : List Char) (v : Json) (tl : JsonFields) (fuel : Nat)
    (rest : List Char),
    fsize (JsonFields.cons k v tl) ≤ fuel →
    parseFields fuel (JsonFields.serFields (.cons k v tl) ++ '}' :: rest)
      = .done (.cons k v tl) rest
  | k, v, tl, fuel, rest, hfu => by
    obtain ⟨f, rfl⟩ : ∃ g, fuel = g + 1 := ⟨fuel - 1, by simp [fsize] at hfu; omega⟩
    have hv : jsize v ≤ f := by
      simp only [fsize] at hfu
      omega
    cases tl with
    | nil =>
      show parseFields (f + 1)
          ((('"' :: (escapeChars k ++ ['"'])) ++ ':' :: Json.ser v) ++ '}' :: rest) = _
      simp only [List.append_assoc, List.cons_append, List.singleton_append]
      rw [pfQuote, readStrBody_escape]
      simp only [List.nil_append]
      rw [skipWs_not_ws _ (by decide)]
      simp only []
      rw [if_pos trivial, rtVal v f '}' rest hv (by decide)]
      simp only []
      rw [skipWs_not_ws _ (by decide)]
      simp only []
      simp
    | cons k2 v2 tl2 =>
      have htl : fsize (JsonFields.cons k2 v2 tl2) ≤ f := by
        simp only [fsize] at hfu ⊢
        have := jsize_pos v
        omega
      show parseFields (f + 1)
          ((('"' :: (escapeChars k ++ ['"']))
            ++ ':' :: Json.ser v ++ ',' :: JsonFields.serFields (.cons k2 v2 tl2))
            ++ '}' :: rest) = _
      simp only [List.append_assoc, List.cons_append, List.singleton_append]
      rw [pfQuote, readStrBody_escape]
      simp only [List.nil_append]
      rw [skipWs_not_ws _ (by decide)]
      simp only []
      rw [if_pos trivial, rtVal v f ',' _ hv (by decide)]
      simp only []
      rw [skipWs_not_ws _ (by decide)]
      simp only []
      rw [if_pos trivial, rtFields k2 v2 tl2 f rest htl]
termination_by k v tl _ _ _ => sizeOf (JsonFields.cons k v tl)

/-- Round trip for a nonempty array element list followed by the closing
bracket. -/
theorem rtElems : ∀ (x : Json) (tl : JsonList) (fuel : Nat) (rest : List Char),
    lsize (JsonList.cons x tl) ≤ fuel →
    parseElems fuel (JsonList.serElems (.cons x tl) ++ ']' :: rest)
      = .done (.cons x tl) rest
  | x, tl, fuel, rest, hfu => by
    obtain ⟨f, rfl⟩ : ∃ g, fuel = g + 1 := ⟨fuel - 1, by simp [lsize] at hfu; omega⟩
    have hx : jsize x ≤ f := by
      simp only [lsize] at hfu
      omega
    cases tl with
    | nil =>
      show parseElems (f + 1) (Json.ser x ++ ']' :: rest) = _
      rw [peStep, rtVal x f ']' rest hx (by decide)]
      simp only []
      rw [skipWs_not_ws _ (by decide)]
      simp only []
      simp
    | cons y tl2 =>
      have htl : lsize (JsonList.cons y tl2) ≤ f := by
        simp only [lsize] at hfu ⊢
        have := jsize_pos x
        omega
      show parseElems (f + 1)
          ((Json.ser x ++ ',' :: JsonList.serElems (.cons y tl2)) ++ ']' :: rest) = _
      simp only [List.append_assoc, List.cons_append]
      rw [peStep, rtVal x f ',' _ hx (by decide)]
      simp only []
      rw [skipWs_not_ws _ (by decide)]
      simp only []
      rw [if_pos trivial, rtElems y tl2 f rest htl]
termination_by x tl _ _ _ => sizeOf (JsonList.cons x tl)
end

/-! The size measure is bounded by the serialized length, so a fuel of
`length + 1` always suffices. -/

mutual
theorem jsize_le_len : ∀ v : Json, jsize v ≤ (Json.ser v).length
  | .null => by simp [jsize, Json.ser]
  | .bool true => by simp [jsize, Json.ser]
  | .bool false => by simp [jsize, Json.ser]
  | .num n => by
    have h : 1 ≤ (serInt n).length := by
      cases n with
      | ofNat m =>
        have := serNat_ne_nil m
        show 1 ≤ (serNat m).length
        cases hsm : serNat m with
        | nil => exact absurd hsm this
        | cons d ds => simp
      | negSucc m => simp [serInt]
    simpa [jsize, Json.ser] using h
  | .str s => by simp [jsize, Json.ser, serStr]
  | .arr xs => by
    have h := lsize_le_len xs
    simp only [jsize, Json.ser, List.length_cons, List.length_append,
      List.length_singleton]
    omega
  | .obj fs => by
    have h := fsize_le_len fs
    simp only [jsize, Json.ser, List.length_cons, List.length_append,
      List.length_singleton]
    omega

theorem lsize_le_len : ∀ xs : JsonList, lsize xs ≤ (JsonList.serElems xs).length + 1
  | .nil => by simp [lsize, JsonList.serElems]
  | .cons x .nil => by
    have h := jsize_le_len x
    simp only [lsize, JsonList.serElems]
    omega
  | .cons x (.cons y tl) => by
    have h1 := jsize_le_len x
    have h2 := lsize_le_len (.cons y tl)
    simp only [lsize, JsonList.serElems, List.length_append, List.length_cons] at h2 ⊢
    omega

theorem fsize_le_len : ∀ fs : JsonFields, fsize fs ≤ (JsonFields.serFields fs).length + 1
  | .nil => by simp [fsize, JsonFields.serFields]
  | .cons k v .nil => by
    have h := jsize_le_len v
    simp only [fsize, JsonFields.serFields, List.length_append, List.length_cons]
    omega
  | .cons k v (.cons k2 v2 tl) => by
    have h1 := jsize_le_len v
    have h2 := fsize_le_len (.cons k2 v2 tl)
    simp only [fsize, JsonFields.serFields, List.length_append, List.length_cons] at h2 ⊢
    omega
end

/-- Parse a buffer with fuel that always suffices (`jsize_le_len`). -/
def parseBuf (buffer : List Char) : PRes := parseVal (buffer.length + 1) buffer

/-- Modelled from the spec: `is-complete()` of the streamjson parser is
true once the buffered input forms a complete JSON value (the token
stack has closed the root value). -/
def isCompleted (buffer : List Char) : Bool :=
  match parseBuf buffer with
  | .done _ _ => true
  | _ => false

/-- The buffer's value when it is one complete JSON value followed by
at most whitespace; this is what a whole-buffer `json.Unmarshal` (Go
standard library, modelled from its contract) accepts. -/
def bufVal? (buffer : List Char) : Option Json :=
  match parseBuf buffer with
  | .done v rest => if (skipWs rest).isEmpty then some v else none
  | _ => none

/-- A serialized object parses back to itself for any fuel at least its
size, leaving the remainder untouched (objects are self-delimiting). -/
theorem parseVal_ser_obj (fs : JsonFields) (fuel : Nat) (rest : List Char)
    (hfu : jsize (Json.obj fs) ≤ fuel) :
    parseVal fuel (Json.ser (.obj fs) ++ rest) = .done (.obj fs) rest := by
  obtain ⟨f, rfl⟩ : ∃ g, fuel = g + 1 := ⟨fuel - 1, by simp [jsize] at hfu; omega⟩
  cases fs with
  | nil => rfl
  | cons k v tl =>
    have hfu2 : fsize (JsonFields.cons k v tl) ≤ f := by
      simp only [jsize] at hfu; omega
    show parseVal (f + 1)
        ('{' :: ((JsonFields.serFields (.cons k v tl) ++ ['}']) ++ rest)) = _
    rw [List.append_assoc, List.singleton_append, pvLbrace]
    have hhead : ∃ T, JsonFields.serFields (.cons k v tl) ++ '}' :: rest
        = '"' :: T := by
      cases tl with
      | nil =>
        refine ⟨escapeChars k ++ '"' :: ':' :: (Json.ser v ++ '}' :: rest), ?_⟩
        show (('"' :: (escapeChars k ++ ['"'])) ++ ':' :: Json.ser v) ++ '}' :: rest = _
        simp [List.append_assoc]
      | cons k2 v2 tl2 =>
        refine ⟨escapeChars k ++ '"' :: ':'
          :: (Json.ser v ++ ',' :: (JsonFields.serFields (.cons k2 v2 tl2)
              ++ '}' :: rest)), ?_⟩
        show (('"' :: (escapeChars k ++ ['"']))
            ++ ':' :: Json.ser v ++ ',' :: JsonFields.serFields (.cons k2 v2 tl2))
            ++ '}' :: rest = _
        simp [List.append_assoc]
    obtain ⟨T, hT⟩ := hhead
    rw [hT, skipWs_not_ws T (by decide)]
    split
    · next rest2 heq =>
      exfalso
      simp only [List.cons.injEq] at heq
      exact absurd heq.1 (by decide)
    · next r2 hne2 =>
      rw [← hT, rtFields k v tl f rest hfu2]

/-- Whole-buffer parse of a serialized object. -/
theorem parseBuf_ser_obj (fs : JsonFields) :
    parseBuf (Json.ser (.obj fs)) = .done (.obj fs) [] := by
  have h := parseVal_ser_obj fs ((Json.ser (.obj fs)).length + 1) []
    (by have := jsize_le_len (.obj fs); omega)
  rw [List.append_nil] at h
  exact h

theorem isCompleted_ser_obj (fs : JsonFields) :
    isCompleted (Json.ser (.obj fs)) = true := by
  unfold isCompleted
  rw [parseBuf_ser_obj]

theorem bufVal?_ser_obj (fs : JsonFields) :
    bufVal? (Json.ser (.obj fs)) = some (.obj fs) := by
  unfold bufVal?
  rw [parseBuf_ser_obj]
  rfl

/-! ## Tool calls and the streaming tool-call decoder
(src/tool_call_json_parser.go)

`llm.ToolCall` carries `ID`, `Name`, `Input` (a JSON object) and
`Output` (the serialized result, filled in later by the runner).  The
`ID` is a uuid string in Go; uuids are modelled by freshness tokens
(`some n`), with `none` for the Go zero value (empty string).  The
`StartAt`/`EndAt` instants carry no claim-observable information and are
omitted.  The wire contract (spec section 6) sends only `name` and
`input`, so unmarshalling reads exactly those two fields; unknown keys
are ignored as in `encoding/json`. -/

structure ToolCall where
  id : Option Nat
  name : String
  input : JsonFields
  output : Option String
deriving DecidableEq

/-- The characters of the JSON key `name`. -/
def nameKey : List Char := ['n', 'a', 'm', 'e']

/-- The characters of the JSON key `input`. -/
def inputKey : List Char := ['i', 'n', 'p', 'u', 't']

/-- `encoding/json` decode of a string-typed struct field: absent or
null leaves the zero value, a string decodes, anything else errors. -/
def goStringField (fs : JsonFields) (key : List Char) : Except String String :=
  match fs.lookupLast key with
  | none => .ok ""
  | some (.str s) => .ok (String.mk s)
  | some .null => .ok ""
  | some _ => .error "json: cannot unmarshal value into field of type string"

/-- `encoding/json` decode of a map-typed struct field. -/
def goMapField (fs : JsonFields) (key : List Char) : Except String JsonFields :=
  match fs.lookupLast key with
  | none => .ok .nil
  | some (.obj o) => .ok o
  | some .null => .ok .nil
  | some _ => .error "json: cannot unmarshal value into field of type map"

/-- Modelled from the Go standard library contract:
`json.Unmarshal(buffer, &toolCall)`. -/
def unmarshalToolCall (buffer : List Char) : Except String ToolCall :=
  match bufVal? buffer with
  | none => .error "invalid JSON"
  | some (.obj fs) =>
    match goStringField fs nameKey, goMapField fs inputKey with
    | .ok n, .ok i => .ok (ToolCall.mk none n i none)
    | .error e, _ => .error e
    | .ok _, .error e => .error e
  | some _ => .error "json: cannot unmarshal value into Go value of type llm.ToolCall"

/-- src/tool_call_json_parser.go: `ToolCallJsonParser`.  `Append` grows
both `p.buffer` and the streamjson parser; the streamjson parser's
observable state is a function of the text appended so far, so the
embedded state is the buffer itself. -/
structure ToolCallJsonParser where
  buffer : List Char
deriving DecidableEq

/-- `NewToolCallJsonParser()`. -/
def ToolCallJsonParser.new : ToolCallJsonParser := ⟨[]⟩

/-- `Append(content)`: `p.buffer += content; p.parser.Append(content)`. -/
def ToolCallJsonParser.append (p : ToolCallJsonParser) (content : List Char) :
    ToolCallJsonParser := ⟨p.buffer ++ content⟩

/-- Modelled from the spec: the streamjson tentative AST exposes the
top-level fields parsed so far (complete input, or a partial object). -/
def tentativeTop (buffer : List Char) : Option JsonFields :=
  match parseBuf buffer with
  | .done (.obj fs) _ => some fs
  | .more (some (.obj fs)) => some fs
  | _ => none

/-- Modelled from the spec: `streamjson` `Get(key)` at the top level. -/
def sjGet (buffer : List Char) (key : List Char) : Option Json :=
  match tentativeTop buffer with
  | some fs => fs.lookupLast key
  | none => none

/-- Result of `ToolCallJsonParser.Parse`: `(tool-call | null, completed,
error)`; `typePanic` marks the Go type assertions `toolName.(string)`
and `input.(map[string]any)`, which panic on a mistyped field. -/
inductive TCParseRes where
  | ok (tc : Option ToolCall) (completed : Bool) : TCParseRes
  | err (msg : String) : TCParseRes
  | typePanic : TCParseRes
deriving DecidableEq

/-- src/tool_call_json_parser.go: `Parse()`. -/
def ToolCallJsonParser.parse (p : ToolCallJsonParser) : TCParseRes :=
  if isCompleted p.buffer then
    match unmarshalToolCall p.buffer with
    | .ok tc => .ok (some tc) true
    | .error e => .err e
  else
    match sjGet p.buffer nameKey with
    | some nv =>
      match sjGet p.buffer inputKey with
      | some iv =>
        match nv, iv with
        | .str n, .obj i =>
          .ok (some (ToolCall.mk none (String.mk n) i none)) false
        | _, _ => .typePanic
      | none => .ok none false
    | none => .ok none false

/-- The wire form of a tool call: `{"name": NAME, "input": INPUT}`. -/
def serToolCallWire (name : List Char) (input : JsonFields) : List Char :=
  Json.ser (.obj (.cons nameKey (.str name) (.cons inputKey (.obj input) .nil)))

/-- Feeding a fragment sequence into the decoder. -/
def feedFragments (p : ToolCallJsonParser) (frags : List (List Char)) :
    ToolCallJsonParser :=
  frags.foldl ToolCallJsonParser.append p

theorem feedFragments_buffer (frags : List (List Char)) :
    ∀ p : ToolCallJsonParser, (feedFragments p frags).buffer = p.buffer ++ frags.flatten := by
  induction frags with
  | nil => intro p; simp [feedFragments]
  | cons a l ih =>
    intro p
    show (feedFragments (p.append a) l).buffer = _
    rw [ih]
    simp [ToolCallJsonParser.append, List.flatten]

theorem unmarshal_serToolCallWire (name : List Char) (input : JsonFields) :
    unmarshalToolCall (serToolCallWire name input)
      = .ok (ToolCall.mk none (String.mk name) input none) := by
  unfold unmarshalToolCall serToolCallWire
  rw [bufVal?_ser_obj]
  rfl

theorem isCompleted_serToolCallWire (name : List Char) (input : JsonFields) :
    isCompleted (serToolCallWire name input) = true := by
  unfold serToolCallWire
  exact isCompleted_ser_obj _

/-- C7: the streaming JSON tool-call decoder's `Parse()` returns the
fully unmarshalled tool-call with `completed = true` when the buffer is
a complete JSON value; a tentative tool-call with `completed = false`
when both top-level `name` and `input` are readable from the partial
input; and no tool-call when either is not yet readable. -/
theorem toolCallJsonParser_parse_spec (p : ToolCallJsonParser) :
    (∀ tc, isCompleted p.buffer = true → unmarshalToolCall p.buffer = .ok tc →
      p.parse = .ok (some tc) true)
    ∧ (∀ n i, isCompleted p.buffer = false →
        sjGet p.buffer nameKey = some (.str n) →
        sjGet p.buffer inputKey = some (.obj i) →
        p.parse = .ok (some (ToolCall.mk none (String.mk n) i none)) false)
    ∧ (isCompleted p.buffer = false →
        (sjGet p.buffer nameKey = none ∨ sjGet p.buffer inputKey = none) →
        p.parse = .ok none false) := by
  refine ⟨?_, ?_, ?_⟩
  · intro tc hcomp hun
    unfold ToolCallJsonParser.parse
    rw [hcomp, hun]
    rfl
  · intro n i hcomp hn hi
    unfold ToolCallJsonParser.parse
    rw [hcomp, hn, hi]
    rfl
  · intro hcomp habs
    unfold ToolCallJsonParser.parse
    rw [hcomp]
    rcases habs with hn | hi
    · rw [hn]
      rfl
    · cases hn : sjGet p.buffer nameKey with
      | none => rfl
      | some nv =>
        rw [hi]
        rfl

/-- A complete tool-call buffer for the witness. -/
def tcBufComplete : List Char :=
  serToolCallWire ['e', 'c', 'h', 'o'] (.cons ['t'] (.str ['x']) .nil)

/-- A partial tool-call buffer whose `name` and `input` are readable. -/
def tcBufPartial : List Char :=
  ['{', '"', 'n', 'a', 'm', 'e', '"', ':', '"', 'e', 'c', 'h', 'o', '"', ',',
   '"', 'i', 'n', 'p', 'u', 't', '"', ':', '{']

/-- A partial tool-call buffer whose `name` is not yet readable. -/
def tcBufEarly : List Char := ['{', '"', 'n', 'a']

/-- Witness for C7: the three cases at concrete buffers. -/
theorem toolCallJsonParser_parse_spec_witness :
    (ToolCallJsonParser.mk tcBufComplete).parse
        = .ok (some (ToolCall.mk none "echo"
            (.cons ['t'] (.str ['x']) .nil) none)) true
    ∧ (ToolCallJsonParser.mk tcBufPartial).parse
        = .ok (some (ToolCall.mk none "echo" .nil none)) false
    ∧ (ToolCallJsonParser.mk tcBufEarly).parse = .ok none false :=
  ⟨(toolCallJsonParser_parse_spec ⟨tcBufComplete⟩).1 _ (by decide) (by rfl),
   (toolCallJsonParser_parse_spec ⟨tcBufPartial⟩).2.1 ['e', 'c', 'h', 'o'] .nil
     (by decide) (by decide) (by decide),
   (toolCallJsonParser_parse_spec ⟨tcBufEarly⟩).2.2 (by decide) (Or.inl (by decide))⟩

/-- C8: for every JSON tool-call value (a `name` string and an `input`
object) and every way of splitting its serialized form into a sequence
of fragments, appending the fragments in order to the decoder and then
parsing yields that tool-call with `completed = true`. -/
theorem jsonDecoder_fragment_roundTrip (name : List Char) (input : JsonFields)
    (frags : List (List Char))
    (hsplit : frags.flatten = serToolCallWire name input) :
    (feedFragments ToolCallJsonParser.new frags).parse
      = .ok (some (ToolCall.mk none (String.mk name) input none)) true := by
  have hbuf : (feedFragments ToolCallJsonParser.new frags).buffer
      = serToolCallWire name input := by
    rw [feedFragments_buffer]
    simpa [ToolCallJsonParser.new] using hsplit
  unfold ToolCallJsonParser.parse
  rw [hbuf, isCompleted_serToolCallWire, unmarshal_serToolCallWire]
  rfl

/-- Witness for C8: a concrete three-way fragmentation. -/
theorem jsonDecoder_fragment_roundTrip_witness :
    (feedFragments ToolCallJsonParser.new
        [['{', '"', 'n', 'a'],
         ['m', 'e', '"', ':', '"', 'e', 'c', 'h', 'o', '"', ','],
         ['"', 'i', 'n', 'p', 'u', 't', '"', ':', '{', '"', 't', '"', ':', '"',
          'x', '"', '}', '}']]).parse
      = .ok (some (ToolCall.mk none "echo"
          (.cons ['t'] (.str ['x']) .nil) none)) true :=
  jsonDecoder_fragment_roundTrip ['e', 'c', 'h', 'o']
    (.cons ['t'] (.str ['x']) .nil) _ (by decide)

/-! ## Runner-land data model -/

/-- llm message roles used by the runners. -/
inductive Role where
  | user
  | assistant
  | tool
deriving DecidableEq

/-- `llm.ModelMessage`: a role-tagged record carrying free-form content
and/or a tool-call record. -/
structure ModelMessage where
  role : Role
  content : String
  toolCall : Option ToolCall
deriving DecidableEq

/-- agent.go `Agent` identity fields (tools are handled by the runner's
registry; callbacks and logger are passed to `Run` separately). -/
structure Agent where
  name : String
  description : String
  instructions : String
deriving DecidableEq

/-- context.go `AgentContext`: per-run state reachable from the
cancellation token.  The tool-call history is the ordered record list
appended by `AppendToolCall`; the session map is not observed by any
claim and is omitted. -/
structure AgentContext where
  agent : Agent
  messages : List ModelMessage
  history : List ToolCall
deriving DecidableEq

/-- `AppendToolCall` — Modelled from the spec: the method is called by
every runner under src/ but its definition is not among the sources;
spec section 4.6 specifies an append under a write lock. -/
def AgentContext.appendToolCall (ac : AgentContext) (tc : ToolCall) : AgentContext :=
  AgentContext.mk ac.agent ac.messages (ac.history ++ [tc])

/-! ## Context accessors (src/context.go)

`contextKey` is a private key type, so foreign packages cannot collide
with the `agentContextKey` entry; the key space is therefore a sum of
the agent key and everything else. -/

inductive CtxKey where
  | agentKey
  | otherKey (tag : String)
deriving DecidableEq

/-- A value stored in a context frame. -/
inductive CtxVal where
  | agentCtx (ac : AgentContext)
  | otherVal (tag : String)
deriving DecidableEq

/-- `context.Context` as its chain of `WithValue` frames, innermost
first. -/
abbrev GoCtx := List (CtxKey × CtxVal)

/-- `ctx.Value(key)`: innermost frame wins. -/
def ctxValue : GoCtx → CtxKey → Option CtxVal
  | [], _ => none
  | (k, v) :: rest, key => if k = key then some v else ctxValue rest key

/-- `context.WithValue`. -/
def withValue (ctx : GoCtx) (k : CtxKey) (v : CtxVal) : GoCtx := (k, v) :: ctx

/-- src/context.go `WithAgentContext`. -/
def WithAgentContext (ctx : GoCtx) (ac : AgentContext) : GoCtx :=
  withValue ctx .agentKey (.agentCtx ac)

/-- src/context.go `AgentContextOf`: type assertion with comma-ok on
`ctx.Value(agentContextKey)`. -/
def AgentContextOf (ctx : GoCtx) : Option AgentContext × Bool :=
  match ctxValue ctx .agentKey with
  | some (.agentCtx ac) => (some ac, true)
  | _ => (none, false)

/-- C10: retrieving after storing returns the stored context with ok;
retrieving from a context that carries no agent execution context
returns `(nil, false)` rather than failing. -/
theorem agentContextOf_spec :
    (∀ (ctx : GoCtx) (ac : AgentContext),
      AgentContextOf (WithAgentContext ctx ac) = (some ac, true))
    ∧ ∀ ctx : GoCtx, (∀ ac, ctxValue ctx .agentKey ≠ some (.agentCtx ac)) →
        AgentContextOf ctx = (none, false) := by
  constructor
  · intro ctx ac
    rfl
  · intro ctx hno
    unfold AgentContextOf
    cases hv : ctxValue ctx .agentKey with
    | none => rfl
    | some v =>
      cases v with
      | agentCtx ac => exact absurd hv (hno ac)
      | otherVal tag => rfl

/-- Witness for C10 at a concrete context and empty chain. -/
theorem agentContextOf_spec_witness :
    AgentContextOf (WithAgentContext [] (AgentContext.mk (Agent.mk "a" "d" "i") [] []))
        = (some (AgentContext.mk (Agent.mk "a" "d" "i") [] []), true)
    ∧ AgentContextOf [] = (none, false) :=
  ⟨agentContextOf_spec.1 [] (AgentContext.mk (Agent.mk "a" "d" "i") [] []),
   agentContextOf_spec.2 [] (fun ac h => by cases h)⟩

/-! ## Tool handles and the registry (src/tool_registry.go, tools.go) -/

/-- tools.go `ModelTool`: the tool handle interface.  `run` models
`Run(ctx, input) (any, error)`: `.error` is a non-nil error, `.ok none`
a nil output, `.ok (some v)` a JSON-representable output. -/
structure MTool where
  name : String
  description : String
  inputSchema : Json
  outputSchema : Option Json
  usage : String
  run : JsonFields → Except String (Option Json)

/-- src/tool_registry.go: the registry is a unique-name map guarded by
an RWMutex; modelled as the list of registered tools looked up by name
(operations are atomic in this sequential embedding). -/
abbrev ToolRegistry := List MTool

/-- Map lookup by name. -/
def findTool (r : ToolRegistry) (name : String) : Option MTool :=
  r.find? (fun t => t.name == name)

/-- `RegisterTool`: fails if the name is taken, else inserts. -/
def registerTool (r : ToolRegistry) (t : MTool) : Except String ToolRegistry :=
  if (findTool r t.name).isSome then
    .error ("tool with name '" ++ t.name ++ "' already registered")
  else .ok (r ++ [t])

/-- `UnregisterTool`: fails if absent, else deletes. -/
def unregisterTool (r : ToolRegistry) (name : String) : Except String ToolRegistry :=
  if (findTool r name).isSome then
    .ok (r.filter fun t => !(t.name == name))
  else .error ("tool with name '" ++ name ++ "' not found")

/-- `GetTool`: fails if absent. -/
def getTool (r : ToolRegistry) (name : String) : Except String MTool :=
  match findTool r name with
  | some t => .ok t
  | none => .error ("tool with name '" ++ name ++ "' not found")

/-- `GetTools`: returns a fresh slice holding all registered tools (a
snapshot: the Go code copies into a new slice, so caller mutation
cannot reach the registry map; in the pure embedding the snapshot is
the registry's own content). -/
def getTools (r : ToolRegistry) : List MTool := r

/-- C9: registry operations fail exactly on duplicate registration or
missing names, failure leaves the registry unchanged, and listing is a
snapshot of the content. -/
theorem toolRegistry_contract (r : ToolRegistry) (t : MTool) (name : String) :
    ((findTool r t.name).isSome →
      registerTool r t = .error ("tool with name '" ++ t.name ++ "' already registered"))
    ∧ ((findTool r t.name).isSome = false → registerTool r t = .ok (r ++ [t]))
    ∧ ((findTool r name).isSome = false →
      unregisterTool r name = .error ("tool with name '" ++ name ++ "' not found"))
    ∧ ((findTool r name).isSome →
      unregisterTool r name = .ok (r.filter fun t2 => !(t2.name == name)))
    ∧ (∀ tl, findTool r name = some tl → getTool r name = .ok tl)
    ∧ ((findTool r name).isSome = false →
      getTool r name = .error ("tool with name '" ++ name ++ "' not found"))
    ∧ getTools r = r := by
  refine ⟨?_, ?_, ?_, ?_, ?_, ?_, rfl⟩
  · intro h
    unfold registerTool
    rw [if_pos h]
  · intro h
    unfold registerTool
    rw [if_neg (by simp [h])]
  · intro h
    unfold unregisterTool
    rw [if_neg (by simp [h])]
  · intro h
    unfold unregisterTool
    rw [if_pos h]
  · intro tl h
    unfold getTool
    rw [h]
  · intro h
    unfold getTool
    rw [show findTool r name = none from by
      cases hf : findTool r name with
      | none => rfl
      | some tl => rw [hf] at h; simp at h]

/-- A concrete tool for witnesses. -/
def echoTool : MTool :=
  MTool.mk "echo" "echoes its input" (Json.obj .nil) none ""
    (fun input => .ok (some (.obj input)))

/-- Witness for C9 on a one-tool registry. -/
theorem toolRegistry_contract_witness :
    registerTool [echoTool] echoTool
        = .error ("tool with name '" ++ "echo" ++ "' already registered")
    ∧ getTool [echoTool] "missing"
        = .error ("tool with name '" ++ "missing" ++ "' not found")
    ∧ getTools [echoTool] = [echoTool] :=
  ⟨(toolRegistry_contract [echoTool] echoTool "echo").1 (by rfl),
   (toolRegistry_contract [echoTool] echoTool "missing").2.2.2.2.2.1 (by rfl),
   (toolRegistry_contract [echoTool] echoTool "missing").2.2.2.2.2.2⟩

/-! ## Complete-Task tool (src/complete_task_tool.go) -/

/-- `CompleteTaskToolName`. -/
def CompleteTaskToolName : String := "complete_task"

/-- `NewCompleteTaskTool(outputSchema, usage)`: the built-in sentinel
tool.  Its input schema is the caller's requested output schema, its
output schema is nil, and `Run` returns its input unchanged. -/
def NewCompleteTaskTool (outputSchema : Json) (usage : String) : MTool :=
  MTool.mk CompleteTaskToolName
    "Completes the user query and output the final results"
    outputSchema none usage (fun input => .ok (some (.obj input)))

/-! ## Lifecycle callbacks

The four hooks of the `Callback` interface.  Arguments that no claim
observes (provider, model, prompts, message list, output text, usage)
are reduced to the iteration index; the tool hooks keep the tool name,
input and output they receive in the source. -/

structure CB where
  beforeModel : Nat → Except String Unit
  afterModel : Nat → Except String Unit
  beforeToolCall : String → JsonFields → Except String Unit
  afterToolCall : String → JsonFields → Option Json → Except String Unit

/-- Record of one hook invocation (observable order of callback calls). -/
inductive CbEvent where
  | beforeModel (i : Nat)
  | afterModel (i : Nat)
  | beforeToolCall (name : String) (input : JsonFields)
  | afterToolCall (name : String) (input : JsonFields) (output : Option Json)
deriving DecidableEq

/-! ## Blocking JSON runner (src/json_completion_runner.go) -/

/-- Fatal errors returned by the blocking `Run`; each constructor is one
`fmt.Errorf` format string of the source.  The cancellation and
prompt-assembly failures are not modelled (the token is never cancelled
and template rendering is deterministic); `marshalFailed` is unreachable
because every `Json` value serializes. -/
inductive RunError where
  | cbBeforeModel (e : String)
  | cbAfterModel (e : String)
  | cbBeforeToolCall (e : String)
  | cbAfterToolCall (e : String)
  | retriesExceeded (maxRetries : Nat)
  | marshalFailed (e : String)
deriving DecidableEq

/-- One blocking model turn: `r.model.Complete` (external model client)
either fails or yields the output text that `json.Unmarshal` decodes. -/
inductive TurnOutcome where
  | modelErr (msg : String)
  | modelOk (raw : List Char)

/-- The mutable state of one blocking run: the message list, the
consecutive-error counter, the uuid freshness counter, the execution
context's tool-call history, the final results (`some out` once
`complete_task` fired), and the callback-invocation trace. -/
structure RunState where
  messages : List ModelMessage
  consecutiveErrors : Nat
  nextId : Nat
  history : List ToolCall
  results : Option (Option Json)
  trace : List CbEvent
deriving DecidableEq

def RunState.pushMsg (s : RunState) (m : ModelMessage) : RunState :=
  RunState.mk (s.messages ++ [m]) s.consecutiveErrors s.nextId s.history s.results s.trace

def RunState.bumpErr (s : RunState) : RunState :=
  RunState.mk s.messages (s.consecutiveErrors + 1) s.nextId s.history s.results s.trace

def RunState.resetErr (s : RunState) : RunState :=
  RunState.mk s.messages 0 s.nextId s.history s.results s.trace

def RunState.bumpId (s : RunState) : RunState :=
  RunState.mk s.messages s.consecutiveErrors (s.nextId + 1) s.history s.results s.trace

def RunState.pushHistory (s : RunState) (tc : ToolCall) : RunState :=
  RunState.mk s.messages s.consecutiveErrors s.nextId (s.history ++ [tc]) s.results s.trace

def RunState.setResults (s : RunState) (out : Option Json) : RunState :=
  RunState.mk s.messages s.consecutiveErrors s.nextId s.history (some out) s.trace

def RunState.pushTrace (s : RunState) (ev : CbEvent) : RunState :=
  RunState.mk s.messages s.consecutiveErrors s.nextId s.history s.results (s.trace ++ [ev])

def RunState.setMsgs (s : RunState) (m : List ModelMessage) : RunState :=
  RunState.mk m s.consecutiveErrors s.nextId s.history s.results s.trace

/-- Invoke a lifecycle hook when a callback is installed: record the
invocation and return the hook's error result. -/
def invokeHook (cb : Option CB) (ev : CbEvent) (f : CB → Except String Unit)
    (s : RunState) : RunState × Except String Unit :=
  match cb with
  | none => (s, .ok ())
  | some c => (s.pushTrace ev, f c)

/-- `"ERROR [Iteration %d]: "` prefix shared by all injected messages. -/
def iterTag (i : Nat) : String :=
  "ERROR [Iteration " ++ toString (i + 1) ++ "]: "

def modelFailMsg (i : Nat) (err : String) : String :=
  iterTag i ++ "Model completion failed: " ++ err
    ++ "\n\nPlease try a different approach or tool."

def parseFailMsg (i : Nat) (raw : List Char) (err : String) : String :=
  iterTag i ++ "Failed to parse tool call from your response.\n\nInvalid JSON: "
    ++ String.mk raw ++ "\n\nError: " ++ err
    ++ "\n\nPlease ensure your response is valid JSON matching the tool call schema."

/-- `fmt` rendering of a `[]string` slice under `%v`. -/
def goStrSlice (xs : List String) : String :=
  "[" ++ String.intercalate " " xs ++ "]"

def toolNotFoundMsg (i : Nat) (name : String) (avail : List String) : String :=
  iterTag i ++ "Tool '" ++ name ++ "' not found.\n\nAvailable tools: "
    ++ goStrSlice avail ++ "\n\nPlease use one of the available tools."

def toolErrMsg (i : Nat) (err : String) : String := iterTag i ++ err

/-- The history-trimming step at the end of each loop body: keep the
first message and the most recent ones to fit the cap. -/
def trimHistory (maxHist : Nat) (msgs : List ModelMessage) : List ModelMessage :=
  if maxHist < msgs.length then
    msgs.take 1 ++ msgs.drop (msgs.length - maxHist + 1)
  else msgs

/-- Result of one blocking loop iteration. -/
inductive StepRes where
  | next (s : RunState)
  | fatal (e : RunError)
deriving DecidableEq

/-- One iteration of `JSONCompletionRunner.Run`'s loop
(src/json_completion_runner.go lines 79-235), as a pure function of the
state and the turn's model outcome.  The cancellation check and the
prompt assembly at the top of the loop are not modelled (see `RunError`);
usage and cost folding is omitted. -/
def stepJSON (reg : ToolRegistry) (cb : Option CB) (maxRetries maxHist : Nat)
    (i : Nat) (turn : TurnOutcome) (s : RunState) : StepRes :=
  -- callback.BeforeModel
  let r1 := invokeHook cb (.beforeModel i) (fun c => c.beforeModel i) s
  match r1.2 with
  | .error e => .fatal (.cbBeforeModel e)
  | .ok _ =>
    let s1 := r1.1
    match turn with
    | .modelErr msg =>
      -- AfterModel is only invoked when err == nil, so not here
      if 0 < maxRetries ∧ maxRetries < s1.consecutiveErrors + 1 then
        .fatal (.retriesExceeded maxRetries)
      else
        .next ((s1.bumpErr).pushMsg (ModelMessage.mk .user (modelFailMsg i msg) none))
    | .modelOk raw =>
      -- callback.AfterModel (model err == nil here)
      let r2 := invokeHook cb (.afterModel i) (fun c => c.afterModel i) s1
      match r2.2 with
      | .error e => .fatal (.cbAfterModel e)
      | .ok _ =>
        let s2 := r2.1
        match unmarshalToolCall raw with
        | .error e =>
          if 0 < maxRetries ∧ maxRetries < s2.consecutiveErrors + 1 then
            .fatal (.retriesExceeded maxRetries)
          else
            .next ((s2.bumpErr).pushMsg
              (ModelMessage.mk .user (parseFailMsg i raw e) none))
        | .ok tc0 =>
          -- toolCall.ID = uuid.New().String(): fresh token
          let tc := ToolCall.mk (some s2.nextId) tc0.name tc0.input tc0.output
          let s3 := (s2.bumpId).pushMsg (ModelMessage.mk .assistant "" (some tc))
          match getTool reg tc.name with
          | .error _ =>
            -- tool not found: inject the available-tool list, no counter
            .next (s3.pushMsg (ModelMessage.mk .user
              (toolNotFoundMsg i tc.name ((getTools reg).map MTool.name)) none))
          | .ok tool =>
            -- callback.BeforeToolCall
            let r3 := invokeHook cb (.beforeToolCall tc.name tc.input)
              (fun c => c.beforeToolCall tc.name tc.input) s3
            match r3.2 with
            | .error e => .fatal (.cbBeforeToolCall e)
            | .ok _ =>
              let s4 := r3.1
              -- StartAt/EndAt timing omitted
              match tool.run tc.input with
              | .error e =>
                -- AfterToolCall skipped (err != nil); AppendToolCall runs
                let s5 := s4.pushHistory tc
                if 0 < maxRetries ∧ maxRetries < s5.consecutiveErrors + 1 then
                  .fatal (.retriesExceeded maxRetries)
                else
                  .next ((s5.bumpErr).pushMsg
                    (ModelMessage.mk .user (toolErrMsg i e) none))
              | .ok out =>
                -- callback.AfterToolCall (err == nil)
                let r4 := invokeHook cb (.afterToolCall tc.name tc.input out)
                  (fun c => c.afterToolCall tc.name tc.input out) s4
                match r4.2 with
                | .error e => .fatal (.cbAfterToolCall e)
                | .ok _ =>
                  let s5 := (r4.1).pushHistory tc
                  let s6 := s5.resetErr
                  let s7 :=
                    if tool.name = CompleteTaskToolName then
                      s6.setResults out
                    else
                      match out with
                      | none => s6.pushMsg
                          (ModelMessage.mk .tool "Tool call success, no results" none)
                      | some v =>
                        -- json.Marshal of the output: total in the model, so
                        -- the marshal-failure fatal return is unreachable
                        s6.pushMsg (ModelMessage.mk .tool ""
                          (some (ToolCall.mk tc.id tc.name tc.input
                            (some (String.mk (Json.ser v))))))
                  .next (s7.setMsgs (trimHistory maxHist s7.messages))

/-- The iteration loop `for i := 0; i < maxIterations && !completed; i++`. -/
def runIterJSON (reg : ToolRegistry) (cb : Option CB) (maxRetries maxHist : Nat)
    (script : Nat → TurnOutcome) : Nat → Nat → RunState → Except RunError RunState
  | 0, _, s => .ok s
  | n + 1, i, s =>
    if s.results.isSome then .ok s
    else
      match stepJSON reg cb maxRetries maxHist i (script i) s with
      | .fatal e => .error e
      | .next s2 => runIterJSON reg cb maxRetries maxHist script n (i + 1) s2

/-- `AgentRequest` (fields used by the runners). -/
structure AgentRequest where
  outputSchema : Json
  outputUsage : String
  messages : List ModelMessage
  maxIterations : Nat
  maxRetries : Nat

/-- `AgentRequest.Validate`. -/
def validateRequest (r : AgentRequest) : Except String Unit :=
  if r.messages.length = 0 then .error "at least one message is required"
  else if r.maxIterations = 0 then .error "max iterations must be positive"
  else
    match r.messages.getLast? with
    | some m =>
      if m.role = .user then .ok () else .error "last message must be from user"
    | none => .error "at least one message is required"

/-- Result of a blocking run: the validation error, a fatal loop error,
or the response (`output = nil` when the loop ended without
`complete_task`, since `results` starts as nil and `Run` returns no
error after the loop). -/
inductive RunOutcome where
  | ok (output : Option Json) (final : RunState)
  | fatal (e : RunError)
  | invalid (msg : String)

/-- `JSONCompletionRunner.Run`: validate, register the Complete-Task
tool (the duplicate-registration error is discarded), run the loop, and
return the response built from `results`. -/
def runJSON (tools : ToolRegistry) (cb : Option CB) (maxHist : Nat)
    (req : AgentRequest) (script : Nat → TurnOutcome) : RunOutcome :=
  match validateRequest req with
  | .error e => .invalid e
  | .ok _ =>
    let reg :=
      match registerTool tools (NewCompleteTaskTool req.outputSchema req.outputUsage) with
      | .ok r => r
      | .error _ => tools
    let init := RunState.mk req.messages 0 0 [] none []
    match runIterJSON reg cb req.maxRetries maxHist script req.maxIterations 0 init with
    | .error e => .fatal e
    | .ok s => .ok s.results.join s

/-! ## Streaming JSON runner (src/json_completion_stream_runner.go)

The producer goroutine writes `AgentEvent`s into a channel and closes it
on return; the channel contents are modelled as the ordered list of
emitted events.  The stream of model chunks for each iteration is part
of the oracle script. -/

/-- One chunk of the model's stream. -/
inductive Chunk where
  | reasoning (s : String)
  | text (s : List Char)
  | usage
deriving DecidableEq

/-- One streaming model turn: `StreamComplete` fails, or yields a finite
chunk stream which then closes. -/
inductive StreamTurn where
  | streamErr (msg : String)
  | chunks (cs : List Chunk)

/-- Error messages carried by error events; each constructor is one
`fmt.Sprintf` format string of the source. -/
inductive StreamErrMsg where
  | cbBeforeModel (e : String)
  | cbAfterModel (e : String)
  | cbBeforeToolCall (e : String)
  | cbAfterToolCall (e : String)
  | parseFailed (content : List Char) (e : String)
  | marshalFailed (e : String)
  | maxIterations (n : Nat)
deriving DecidableEq

/-- An event on the stream channel.  `tentative` is the source's
`Partial` flag on use-tool events. -/
inductive AgentEvent where
  | reasoning (s : String)
  | useTool (tc : ToolCall) (tentative : Bool)
  | errorEv (m : StreamErrMsg)
deriving DecidableEq

/-- Streaming run state: no consecutive-error counter and no uuid
counter exist in this runner. -/
structure StreamState where
  messages : List ModelMessage
  history : List ToolCall
  results : Option (Option Json)
  trace : List CbEvent
deriving DecidableEq

def StreamState.pushMsg (s : StreamState) (m : ModelMessage) : StreamState :=
  StreamState.mk (s.messages ++ [m]) s.history s.results s.trace

def StreamState.pushHistory (s : StreamState) (tc : ToolCall) : StreamState :=
  StreamState.mk s.messages (s.history ++ [tc]) s.results s.trace

def StreamState.setResults (s : StreamState) (out : Option Json) : StreamState :=
  StreamState.mk s.messages s.history (some out) s.trace

def StreamState.pushTrace (s : StreamState) (ev : CbEvent) : StreamState :=
  StreamState.mk s.messages s.history s.results (s.trace ++ [ev])

def StreamState.setMsgs (s : StreamState) (m : List ModelMessage) : StreamState :=
  StreamState.mk m s.history s.results s.trace

/-- Invoke a hook in the streaming runner. -/
def invokeHookS (cb : Option CB) (ev : CbEvent) (f : CB → Except String Unit)
    (s : StreamState) : StreamState × Except String Unit :=
  match cb with
  | none => (s, .ok ())
  | some c => (s.pushTrace ev, f c)

/-- Result of draining one model stream through the tool-call decoder. -/
inductive DrainRes where
  | drained (tc : Option ToolCall) (events : List AgentEvent)
  | parseFatal (events : List AgentEvent)
  | panicked (events : List AgentEvent)
deriving DecidableEq

/-- The inner chunk loop: append text chunks to the decoder, re-emit
reasoning chunks, fold usage chunks away, emit tentative use-tool
events, and stop at the first completed tool-call (no event is emitted
for it) or when the stream closes.  A decoder error emits one error
event and ends the producer; a mistyped tentative field panics in Go. -/
def drainStream : List Chunk → ToolCallJsonParser → List AgentEvent → DrainRes
  | [], _, evs => .drained none evs
  | c :: rest, p, evs =>
    match c with
    | .reasoning str => drainStream rest p (evs ++ [.reasoning str])
    | .usage => drainStream rest p evs
    | .text str =>
      let p2 := p.append str
      match p2.parse with
      | .err e => .parseFatal (evs ++ [.errorEv (.parseFailed str e)])
      | .typePanic => .panicked evs
      | .ok none _ => drainStream rest p2 evs
      | .ok (some tc) true => .drained (some tc) evs
      | .ok (some tc) false => drainStream rest p2 (evs ++ [.useTool tc true])

def streamFailMsg (i : Nat) (err : String) : String :=
  iterTag i ++ "Model streaming failed: " ++ err
    ++ "\n\nPlease try a different approach or tool."

def noToolCallMsg (i : Nat) : String :=
  iterTag i ++ "No valid tool call was generated. You MUST call a tool."
    ++ "\n\nPlease ensure your response contains a valid tool call."

/-- Result of one streaming loop iteration. -/
inductive SStepRes where
  | next (s : StreamState) (events : List AgentEvent)
  | ended (events : List AgentEvent)
  | panicked (events : List AgentEvent)
deriving DecidableEq

/-- One iteration of `JSONCompletionStreamRunner.Run`'s producer loop
(src/json_completion_stream_runner.go lines 78-323).  Note what is NOT
here, faithfully to the source: no consecutive-error counter, no
max-retries check, and no uuid assignment to the decoded tool-call. -/
def stepStream (reg : ToolRegistry) (cb : Option CB) (maxHist : Nat)
    (i : Nat) (turn : StreamTurn) (s : StreamState) : SStepRes :=
  -- callback.BeforeModel
  let r1 := invokeHookS cb (.beforeModel i) (fun c => c.beforeModel i) s
  match r1.2 with
  | .error e => .ended [.errorEv (.cbBeforeModel e)]
  | .ok _ =>
    let s1 := r1.1
    match turn with
    | .streamErr msg =>
      .next (s1.pushMsg (ModelMessage.mk .user (streamFailMsg i msg) none)) []
    | .chunks cs =>
      match drainStream cs ToolCallJsonParser.new [] with
      | .parseFatal evs => .ended evs
      | .panicked evs => .panicked evs
      | .drained tcOpt evs =>
        match tcOpt with
        | none =>
          -- AfterModel is skipped (toolCall == nil); inject and continue
          .next (s1.pushMsg (ModelMessage.mk .user (noToolCallMsg i) none)) evs
        | some tc =>
          -- callback.AfterModel (toolCall != nil)
          let r2 := invokeHookS cb (.afterModel i) (fun c => c.afterModel i) s1
          match r2.2 with
          | .error e => .ended (evs ++ [.errorEv (.cbAfterModel e)])
          | .ok _ =>
            -- assistant message carries the decoded tool-call as-is (its
            -- id is whatever the decoder produced; no uuid is assigned)
            let s2 := (r2.1).pushMsg (ModelMessage.mk .assistant "" (some tc))
            match getTool reg tc.name with
            | .error _ =>
              .next (s2.pushMsg (ModelMessage.mk .user
                (toolNotFoundMsg i tc.name ((getTools reg).map MTool.name)) none)) evs
            | .ok tool =>
              let r3 := invokeHookS cb (.beforeToolCall tc.name tc.input)
                (fun c => c.beforeToolCall tc.name tc.input) s2
              match r3.2 with
              | .error e => .ended (evs ++ [.errorEv (.cbBeforeToolCall e)])
              | .ok _ =>
                let s3 := r3.1
                match tool.run tc.input with
                | .error e =>
                  let s4 := s3.pushHistory tc
                  .next (s4.pushMsg (ModelMessage.mk .user (toolErrMsg i e) none)) evs
                | .ok out =>
                  let r4 := invokeHookS cb (.afterToolCall tc.name tc.input out)
                    (fun c => c.afterToolCall tc.name tc.input out) s3
                  match r4.2 with
                  | .error e => .ended (evs ++ [.errorEv (.cbAfterToolCall e)])
                  | .ok _ =>
                    let s4 := (r4.1).pushHistory tc
                    let s5 :=
                      if tool.name = CompleteTaskToolName then
                        s4.setResults out
                      else
                        match out with
                        | none => s4.pushMsg
                            (ModelMessage.mk .tool "Tool call success, no results" none)
                        | some v =>
                          s4.pushMsg (ModelMessage.mk .tool ""
                            (some (ToolCall.mk tc.id tc.name tc.input
                              (some (String.mk (Json.ser v))))))
                    .next (s5.setMsgs (trimHistory maxHist s5.messages)) evs

/-- Whole-producer outcome: the closed channel's event list and the
final state, or a Go panic inside the producer. -/
inductive StreamOutcome where
  | closed (events : List AgentEvent) (final : StreamState)
  | panicked (events : List AgentEvent)
  | invalid (msg : String)

/-- The producer loop plus the final max-iterations check. -/
def runIterStream (reg : ToolRegistry) (cb : Option CB) (maxHist : Nat)
    (script : Nat → StreamTurn) (maxIter : Nat) :
    Nat → Nat → StreamState → List AgentEvent → StreamOutcome
  | 0, _, s, evs =>
    if s.results.isSome then .closed evs s
    else .closed (evs ++ [.errorEv (.maxIterations maxIter)]) s
  | n + 1, i, s, evs =>
    if s.results.isSome then .closed evs s
    else
      match stepStream reg cb maxHist i (script i) s with
      | .ended evs2 => .closed (evs ++ evs2) s
      | .panicked evs2 => .panicked (evs ++ evs2)
      | .next s2 evs2 => runIterStream reg cb maxHist script maxIter n (i + 1) s2 (evs ++ evs2)

/-- `JSONCompletionStreamRunner.Run`: validate, register the
Complete-Task tool, then the producer loop.  `req.maxRetries` is
accepted and never read, as in the source. -/
def runStream (tools : ToolRegistry) (cb : Option CB) (maxHist : Nat)
    (req : AgentRequest) (script : Nat → StreamTurn) : StreamOutcome :=
  match validateRequest req with
  | .error e => .invalid e
  | .ok _ =>
    let reg :=
      match registerTool tools (NewCompleteTaskTool req.outputSchema req.outputUsage) with
      | .ok r => r
      | .error _ => tools
    let init := StreamState.mk req.messages [] none []
    runIterStream reg cb maxHist script req.maxIterations req.maxIterations 0 init []

/-! ## Hook and state-builder lemmas -/

/-- The installed callback (if any) succeeds on the given hook. -/
def hookOk (cb : Option CB) (f : CB → Except String Unit) : Prop :=
  ∀ c, cb = some c → f c = .ok ()

theorem invokeHook_snd_ok {cb : Option CB} {f : CB → Except String Unit}
    (ev : CbEvent) (s : RunState) (h : hookOk cb f) :
    (invokeHook cb ev f s).2 = .ok () := by
  cases cb with
  | none => rfl
  | some c => simpa [invokeHook] using h c rfl

theorem invokeHookS_snd_ok {cb : Option CB} {f : CB → Except String Unit}
    (ev : CbEvent) (s : StreamState) (h : hookOk cb f) :
    (invokeHookS cb ev f s).2 = .ok () := by
  cases cb with
  | none => rfl
  | some c => simpa [invokeHookS] using h c rfl

theorem invokeHook_fst (cb : Option CB) (ev : CbEvent) (f : CB → Except String Unit)
    (s : RunState) :
    (invokeHook cb ev f s).1.messages = s.messages
    ∧ (invokeHook cb ev f s).1.consecutiveErrors = s.consecutiveErrors
    ∧ (invokeHook cb ev f s).1.nextId = s.nextId
    ∧ (invokeHook cb ev f s).1.history = s.history
    ∧ (invokeHook cb ev f s).1.results = s.results := by
  cases cb <;> exact ⟨rfl, rfl, rfl, rfl, rfl⟩

theorem invokeHookS_fst (cb : Option CB) (ev : CbEvent) (f : CB → Except String Unit)
    (s : StreamState) :
    (invokeHookS cb ev f s).1.messages = s.messages
    ∧ (invokeHookS cb ev f s).1.history = s.history
    ∧ (invokeHookS cb ev f s).1.results = s.results := by
  cases cb <;> exact ⟨rfl, rfl, rfl⟩

/-! ## Concrete scenario ingredients and observables -/

/-- The wire text of an `echo` tool call with empty input. -/
def rawEcho : List Char := serToolCallWire ['e', 'c', 'h', 'o'] .nil

/-- The wire text of a `complete_task` call with empty input. -/
def rawComplete : List Char :=
  serToolCallWire ['c', 'o', 'm', 'p', 'l', 'e', 't', 'e', '_', 't', 'a', 's', 'k'] .nil

/-- A user message. -/
def userMsg (s : String) : ModelMessage := ModelMessage.mk .user s none

/-- A minimal valid request. -/
def req1 (maxIter maxRetries : Nat) : AgentRequest :=
  AgentRequest.mk (Json.obj .nil) "" [userMsg "hi"] maxIter maxRetries

/-- A callback whose four hooks always succeed (used to observe the
invocation trace). -/
def okCB : CB :=
  CB.mk (fun _ => .ok ()) (fun _ => .ok ()) (fun _ _ => .ok ())
    (fun _ _ _ => .ok ())

def runJSONOutput : RunOutcome → Option (Option Json)
  | .ok out _ => some out
  | _ => none

def runJSONIsError : RunOutcome → Bool
  | .ok _ _ => false
  | _ => true

def runJSONMsgs : RunOutcome → List ModelMessage
  | .ok _ s => s.messages
  | _ => []

def runJSONTrace : RunOutcome → List CbEvent
  | .ok _ s => s.trace
  | _ => []

def runJSONHistory : RunOutcome → List ToolCall
  | .ok _ s => s.history
  | _ => []

def streamEvents : StreamOutcome → Option (List AgentEvent)
  | .closed evs _ => some evs
  | _ => none

def streamHistory : StreamOutcome → List ToolCall
  | .closed _ s => s.history
  | _ => []

def streamTrace : StreamOutcome → List CbEvent
  | .closed _ s => s.trace
  | _ => []

/-- C5: the Complete-Task tool has the fixed name `complete_task`, its
input schema is the caller's output schema, its run returns its input
unchanged, and when the controller dispatches a tool of this name the
tool's return value is stored as the run's output and the loop exits. -/
theorem completeTask_tool_and_termination :
    (∀ (sch : Json) (u : String),
      (NewCompleteTaskTool sch u).name = "complete_task"
      ∧ (NewCompleteTaskTool sch u).inputSchema = sch
      ∧ ∀ input, (NewCompleteTaskTool sch u).run input = .ok (some (.obj input)))
    ∧ (∀ (reg : ToolRegistry) (cb : Option CB) (mr mh i : Nat) (raw : List Char)
        (s : RunState) (tc0 : ToolCall) (tool : MTool) (out : Option Json),
        unmarshalToolCall raw = .ok tc0 →
        getTool reg tc0.name = .ok tool →
        tool.name = CompleteTaskToolName →
        tool.run tc0.input = .ok out →
        hookOk cb (fun c => c.beforeModel i) →
        hookOk cb (fun c => c.afterModel i) →
        hookOk cb (fun c => c.beforeToolCall tc0.name tc0.input) →
        hookOk cb (fun c => c.afterToolCall tc0.name tc0.input out) →
        ∃ s2, stepJSON reg cb mr mh i (.modelOk raw) s = .next s2
          ∧ s2.results = some out)
    ∧ (∀ (reg : ToolRegistry) (cb : Option CB) (mr mh : Nat)
        (script : Nat → TurnOutcome) (n i : Nat) (s : RunState),
        s.results.isSome → runIterJSON reg cb mr mh script n i s = .ok s) := by
  refine ⟨fun sch u => ⟨rfl, rfl, fun input => rfl⟩, ?_, ?_⟩
  · intro reg cb mr mh i raw s tc0 tool out hun hget hname hrun hbm ham hbt hat
    simp only [stepJSON]
    rw [invokeHook_snd_ok _ _ hbm]
    simp only []
    rw [invokeHook_snd_ok _ _ ham]
    simp only []
    rw [hun]
    simp only []
    rw [hget]
    simp only []
    rw [invokeHook_snd_ok _ _ hbt]
    simp only []
    rw [hrun]
    simp only []
    rw [invokeHook_snd_ok _ _ hat]
    simp only []
    rw [if_pos hname]
    exact ⟨_, rfl, rfl⟩
  · intro reg cb mr mh script n i s hres
    cases n with
    | zero => rfl
    | succ n2 =>
      simp only [runIterJSON]
      rw [if_pos hres]

/-- Witness for C5 at concrete inputs. -/
theorem completeTask_tool_and_termination_witness :
    (NewCompleteTaskTool (Json.obj .nil) "").name = "complete_task"
    ∧ (∃ s2, stepJSON [NewCompleteTaskTool (Json.obj .nil) ""] none 0 100 0
        (.modelOk rawComplete) (RunState.mk [userMsg "hi"] 0 0 [] none [])
        = .next s2 ∧ s2.results = some (some (.obj .nil)))
    ∧ runIterJSON [] none 0 100 (fun _ => .modelErr "x") 5 0
        (RunState.mk [] 0 0 [] (some none) [])
      = .ok (RunState.mk [] 0 0 [] (some none) []) :=
  ⟨(completeTask_tool_and_termination.1 (Json.obj .nil) "").1,
   completeTask_tool_and_termination.2.1
     [NewCompleteTaskTool (Json.obj .nil) ""] none 0 100 0 rawComplete
     (RunState.mk [userMsg "hi"] 0 0 [] none [])
     (ToolCall.mk none "complete_task" .nil none)
     (NewCompleteTaskTool (Json.obj .nil) "") (some (.obj .nil))
     (by rfl) (by rfl) rfl (by rfl)
     (fun c h => nomatch h) (fun c h => nomatch h)
     (fun c h => nomatch h) (fun c h => nomatch h),
   completeTask_tool_and_termination.2.2 [] none 0 100 (fun _ => .modelErr "x")
     5 0 (RunState.mk [] 0 0 [] (some none) []) (by rfl)⟩

/-- C6 counterexample: in the blocking runner the dispatched
`complete_task` tool DOES fire the before- and after-tool callbacks
(the claim says the blocking variant skips them). -/
theorem blockingHooks_fire_for_completeTask :
    CbEvent.beforeToolCall "complete_task" .nil
      ∈ runJSONTrace (runJSON [] (some okCB) 100 (req1 1 0)
          (fun _ => .modelOk rawComplete))
    ∧ CbEvent.afterToolCall "complete_task" .nil (some (.obj .nil))
      ∈ runJSONTrace (runJSON [] (some okCB) 100 (req1 1 0)
          (fun _ => .modelOk rawComplete)) := by
  decide

/-- C6 amended: both runner variants fire the before-tool callback for
every dispatched tool, `complete_task` included, and the after-tool
callback whenever the tool run succeeds. -/
theorem toolHooks_uniform :
    (∀ (reg : ToolRegistry) (c : CB) (mr mh i : Nat) (raw : List Char)
        (s s2 : RunState) (tc0 : ToolCall) (tool : MTool),
        unmarshalToolCall raw = .ok tc0 →
        getTool reg tc0.name = .ok tool →
        stepJSON reg (some c) mr mh i (.modelOk raw) s = .next s2 →
        CbEvent.beforeToolCall tc0.name tc0.input ∈ s2.trace
        ∧ ∀ out, tool.run tc0.input = .ok out →
            CbEvent.afterToolCall tc0.name tc0.input out ∈ s2.trace)
    ∧ (∀ (reg : ToolRegistry) (c : CB) (mh i : Nat) (cs : List Chunk)
        (s : StreamState) (s2 : StreamState) (evs evs0 : List AgentEvent)
        (tc : ToolCall) (tool : MTool),
        drainStream cs ToolCallJsonParser.new [] = .drained (some tc) evs0 →
        getTool reg tc.name = .ok tool →
        stepStream reg (some c) mh i (.chunks cs) s = .next s2 evs →
        CbEvent.beforeToolCall tc.name tc.input ∈ s2.trace
        ∧ ∀ out, tool.run tc.input = .ok out →
            CbEvent.afterToolCall tc.name tc.input out ∈ s2.trace) := by
  constructor
  · intro reg c mr mh i raw s s2 tc0 tool hun hget h
    simp only [stepJSON, invokeHook] at h
    rw [hun] at h
    simp only [] at h
    rw [hget] at h
    simp only [] at h
    split at h
    next => exact absurd h (by simp)
    next =>
      split at h
      next => exact absurd h (by simp)
      next =>
        split at h
        next => exact absurd h (by simp)
        next =>
          split at h
          next e hrun =>
            split at h
            next => exact absurd h (by simp)
            next =>
              cases h
              constructor
              · simp [RunState.pushMsg, RunState.bumpErr, RunState.bumpId,
                  RunState.pushHistory, RunState.pushTrace]
              · intro out hrunok
                rw [hrun] at hrunok
                exact absurd hrunok (by simp)
          next out hrun =>
            split at h
            next => exact absurd h (by simp)
            next =>
              split at h
              next hname =>
                cases h
                constructor
                · simp [RunState.pushMsg, RunState.bumpErr, RunState.bumpId,
                    RunState.pushHistory, RunState.pushTrace, RunState.resetErr,
                    RunState.setResults, RunState.setMsgs]
                · intro out2 hrunok
                  rw [hrun] at hrunok
                  injection hrunok with he
                  subst he
                  simp [RunState.pushMsg, RunState.bumpErr, RunState.bumpId,
                    RunState.pushHistory, RunState.pushTrace, RunState.resetErr,
                    RunState.setResults, RunState.setMsgs]
              next hname =>
                split at h
                next =>
                  cases h
                  constructor
                  · simp [RunState.pushMsg, RunState.bumpErr, RunState.bumpId,
                      RunState.pushHistory, RunState.pushTrace, RunState.resetErr,
                      RunState.setResults, RunState.setMsgs]
                  · intro out2 hrunok
                    rw [hrun] at hrunok
                    injection hrunok with he
                    subst he
                    simp [RunState.pushMsg, RunState.bumpErr, RunState.bumpId,
                      RunState.pushHistory, RunState.pushTrace, RunState.resetErr,
                      RunState.setResults, RunState.setMsgs]
                next v =>
                  cases h
                  constructor
                  · simp [RunState.pushMsg, RunState.bumpErr, RunState.bumpId,
                      RunState.pushHistory, RunState.pushTrace, RunState.resetErr,
                      RunState.setResults, RunState.setMsgs]
                  · intro out2 hrunok
                    rw [hrun] at hrunok
                    injection hrunok with he
                    subst he
                    simp [RunState.pushMsg, RunState.bumpErr, RunState.bumpId,
                      RunState.pushHistory, RunState.pushTrace, RunState.resetErr,
                      RunState.setResults, RunState.setMsgs]
  · intro reg c mh i cs s s2 evs evs0 tc tool hdrain hget h
    simp only [stepStream, invokeHookS] at h
    rw [hdrain] at h
    simp only [] at h
    rw [hget] at h
    simp only [] at h
    split at h
    next => exact absurd h (by simp)
    next =>
      split at h
      next => exact absurd h (by simp)
      next =>
        split at h
        next => exact absurd h (by simp)
        next =>
          split at h
          next e hrun =>
            cases h
            constructor
            · simp [StreamState.pushMsg, StreamState.pushHistory,
                StreamState.pushTrace]
            · intro out hrunok
              rw [hrun] at hrunok
              exact absurd hrunok (by simp)
          next out hrun =>
            split at h
            next => exact absurd h (by simp)
            next =>
              split at h
              next hname =>
                cases h
                constructor
                · simp [StreamState.pushMsg, StreamState.pushHistory,
                    StreamState.pushTrace, StreamState.setResults,
                    StreamState.setMsgs]
                · intro out2 hrunok
                  rw [hrun] at hrunok
                  injection hrunok with he
                  subst he
                  simp [StreamState.pushMsg, StreamState.pushHistory,
                    StreamState.pushTrace, StreamState.setResults,
                    StreamState.setMsgs]
              next hname =>
                split at h
                next =>
                  cases h
                  constructor
                  · simp [StreamState.pushMsg, StreamState.pushHistory,
                      StreamState.pushTrace, StreamState.setResults,
                      StreamState.setMsgs]
                  · intro out2 hrunok
                    rw [hrun] at hrunok
                    injection hrunok with he
                    subst he
                    simp [StreamState.pushMsg, StreamState.pushHistory,
                      StreamState.pushTrace, StreamState.setResults,
                      StreamState.setMsgs]
                next v =>
                  cases h
                  constructor
                  · simp [StreamState.pushMsg, StreamState.pushHistory,
                      StreamState.pushTrace, StreamState.setResults,
                      StreamState.setMsgs]
                  · intro out2 hrunok
                    rw [hrun] at hrunok
                    injection hrunok with he
                    subst he
                    simp [StreamState.pushMsg, StreamState.pushHistory,
                      StreamState.pushTrace, StreamState.setResults,
                      StreamState.setMsgs]

/-- The expected post-step state for the blocking hook witness. -/
def witS2 : RunState :=
  RunState.mk
    [ModelMessage.mk .assistant "" (some (ToolCall.mk (some 0) "echo" .nil none)),
     ModelMessage.mk .tool ""
       (some (ToolCall.mk (some 0) "echo" .nil (some (String.mk ['{', '}']))))]
    0 1 [ToolCall.mk (some 0) "echo" .nil none] none
    [.beforeModel 0, .afterModel 0, .beforeToolCall "echo" .nil,
     .afterToolCall "echo" .nil (some (.obj .nil))]

/-- The expected post-step state for the streaming hook witness. -/
def witS2s : StreamState :=
  StreamState.mk
    [ModelMessage.mk .assistant "" (some (ToolCall.mk none "echo" .nil none)),
     ModelMessage.mk .tool ""
       (some (ToolCall.mk none "echo" .nil (some (String.mk ['{', '}']))))]
    [ToolCall.mk none "echo" .nil none] none
    [.beforeModel 0, .afterModel 0, .beforeToolCall "echo" .nil,
     .afterToolCall "echo" .nil (some (.obj .nil))]

/-- Witness for the amended C6 theorem at concrete inputs. -/
theorem toolHooks_uniform_witness :
    (CbEvent.beforeToolCall "echo" .nil ∈ witS2.trace
      ∧ CbEvent.afterToolCall "echo" .nil (some (.obj .nil)) ∈ witS2.trace)
    ∧ (CbEvent.beforeToolCall "echo" .nil ∈ witS2s.trace
      ∧ CbEvent.afterToolCall "echo" .nil (some (.obj .nil)) ∈ witS2s.trace) :=
  have hb := toolHooks_uniform.1 [echoTool] okCB 0 100 0 rawEcho
    (RunState.mk [] 0 0 [] none []) witS2 (ToolCall.mk none "echo" .nil none)
    echoTool (by rfl) (by rfl) (by decide)
  have hs := toolHooks_uniform.2 [echoTool] okCB 100 0 [Chunk.text rawEcho]
    (StreamState.mk [] [] none []) witS2s [] [] (ToolCall.mk none "echo" .nil none)
    echoTool (by decide) (by rfl) (by decide)
  ⟨⟨hb.1, hb.2 (some (.obj .nil)) (by rfl)⟩,
   ⟨hs.1, hs.2 (some (.obj .nil)) (by rfl)⟩⟩

/-! ## History compaction and first-message preservation (C4) -/

theorem head?_append_single {α : Type} (l : List α) (x : α) (h : l ≠ []) :
    (l ++ [x]).head? = l.head? ∧ l ++ [x] ≠ [] := by
  cases l with
  | nil => exact absurd rfl h
  | cons a t => exact ⟨rfl, by simp⟩

theorem trimHistory_head (mh : Nat) (msgs : List ModelMessage) (h : msgs ≠ []) :
    (trimHistory mh msgs).head? = msgs.head? ∧ trimHistory mh msgs ≠ [] := by
  unfold trimHistory
  split
  · cases msgs with
    | nil => exact absurd rfl h
    | cons a t => exact ⟨rfl, by simp⟩
  · exact ⟨rfl, h⟩

/-- What one compaction does when the cap is exceeded: the result has
exactly `maxHist` messages, starts with the original first message, and
continues with the newest `maxHist - 1` messages. -/
theorem trimHistory_spec (mh : Nat) (msgs : List ModelMessage)
    (h1 : 1 ≤ mh) (h2 : mh < msgs.length) :
    (trimHistory mh msgs).length = mh
    ∧ (trimHistory mh msgs).head? = msgs.head?
    ∧ (trimHistory mh msgs).drop 1 = msgs.drop (msgs.length - mh + 1) := by
  unfold trimHistory
  rw [if_pos h2]
  refine ⟨?_, ?_, ?_⟩
  · rw [List.length_append, List.length_take, List.length_drop]
    omega
  · cases msgs with
    | nil => simp at h2
    | cons a t => rfl
  · cases msgs with
    | nil => simp at h2
    | cons a t => simp

/-- Head-preservation invariant: the message list is nonempty and its
first element is `m0`. -/
def HP (m0 : Option ModelMessage) (s : RunState) : Prop :=
  s.messages.head? = m0 ∧ s.messages ≠ []

/-- Streaming variant of `HP`. -/
def HPs (m0 : Option ModelMessage) (s : StreamState) : Prop :=
  s.messages.head? = m0 ∧ s.messages ≠ []

theorem HP_pushMsg {m0 : Option ModelMessage} {s : RunState} (h : HP m0 s)
    (m : ModelMessage) : HP m0 (s.pushMsg m) :=
  ⟨(head?_append_single _ m h.2).1.trans h.1, (head?_append_single _ m h.2).2⟩

theorem HP_trim {m0 : Option ModelMessage} {s : RunState} (h : HP m0 s)
    (mh : Nat) : HP m0 (s.setMsgs (trimHistory mh s.messages)) :=
  ⟨(trimHistory_head mh _ h.2).1.trans h.1, (trimHistory_head mh _ h.2).2⟩

theorem HPs_pushMsg {m0 : Option ModelMessage} {s : StreamState} (h : HPs m0 s)
    (m : ModelMessage) : HPs m0 (s.pushMsg m) :=
  ⟨(head?_append_single _ m h.2).1.trans h.1, (head?_append_single _ m h.2).2⟩

theorem HPs_trim {m0 : Option ModelMessage} {s : StreamState} (h : HPs m0 s)
    (mh : Nat) : HPs m0 (s.setMsgs (trimHistory mh s.messages)) :=
  ⟨(trimHistory_head mh _ h.2).1.trans h.1, (trimHistory_head mh _ h.2).2⟩

set_option maxHeartbeats 2000000 in
/-- The messages list of a run state never becomes empty, and its first
element never changes, across one blocking iteration. -/
theorem stepJSON_head_preserved (reg : ToolRegistry) (cb : Option CB)
    (mr mh i : Nat) (turn : TurnOutcome) (s s2 : RunState)
    (h : stepJSON reg cb mr mh i turn s = .next s2)
    (hne : s.messages ≠ []) :
    s2.messages.head? = s.messages.head? ∧ s2.messages ≠ [] := by
  have hbase : HP s.messages.head? s := ⟨rfl, hne⟩
  simp only [stepJSON, invokeHook] at h
  iterate 14 (all_goals try split at h)
  all_goals
    cases h <;>
      first
        | exact hbase
        | exact HP_pushMsg hbase _
        | exact HP_pushMsg (HP_pushMsg hbase _) _
        | exact HP_trim hbase _
        | exact HP_trim (HP_pushMsg hbase _) _
        | exact HP_trim (HP_pushMsg (HP_pushMsg hbase _) _) _

set_option maxHeartbeats 2000000 in
/-- Streaming analogue of `stepJSON_head_preserved`. -/
theorem stepStream_head_preserved (reg : ToolRegistry) (cb : Option CB)
    (mh i : Nat) (turn : StreamTurn) (s s2 : StreamState) (evs : List AgentEvent)
    (h : stepStream reg cb mh i turn s = .next s2 evs)
    (hne : s.messages ≠ []) :
    s2.messages.head? = s.messages.head? ∧ s2.messages ≠ [] := by
  have hbase : HPs s.messages.head? s := ⟨rfl, hne⟩
  simp only [stepStream, invokeHookS] at h
  iterate 14 (all_goals try split at h)
  all_goals
    cases h <;>
      first
        | exact hbase
        | exact HPs_pushMsg hbase _
        | exact HPs_pushMsg (HPs_pushMsg hbase _) _
        | exact HPs_trim hbase _
        | exact HPs_trim (HPs_pushMsg hbase _) _
        | exact HPs_trim (HPs_pushMsg (HPs_pushMsg hbase _) _) _

/-- Head preservation over the whole blocking loop. -/
theorem runIterJSON_head_preserved (reg : ToolRegistry) (cb : Option CB)
    (mr mh : Nat) (script : Nat → TurnOutcome) :
    ∀ (n i : Nat) (s s2 : RunState),
    runIterJSON reg cb mr mh script n i s = .ok s2 → s.messages ≠ [] →
    s2.messages.head? = s.messages.head? ∧ s2.messages ≠ [] := by
  intro n
  induction n with
  | zero =>
    intro i s s2 h hne
    injection h with h2
    subst h2
    exact ⟨rfl, hne⟩
  | succ n2 ih =>
    intro i s s2 h hne
    simp only [runIterJSON] at h
    split at h
    · injection h with h2
      subst h2
      exact ⟨rfl, hne⟩
    · split at h
      next => exact absurd h (by simp)
      next s3 hstep =>
        have h1 := stepJSON_head_preserved reg cb mr mh i (script i) s s3 hstep hne
        have h2 := ih (i + 1) s3 s2 h h1.2
        exact ⟨h2.1.trans h1.1, h2.2⟩

/-- Head preservation over the whole streaming producer. -/
theorem runIterStream_head_preserved (reg : ToolRegistry) (cb : Option CB)
    (mh : Nat) (script : Nat → StreamTurn) (maxIter : Nat) :
    ∀ (n i : Nat) (s s2 : StreamState) (evs0 evs : List AgentEvent),
    runIterStream reg cb mh script maxIter n i s evs0 = .closed evs s2 →
    s.messages ≠ [] →
    s2.messages.head? = s.messages.head? ∧ s2.messages ≠ [] := by
  intro n
  induction n with
  | zero =>
    intro i s s2 evs0 evs h hne
    simp only [runIterStream] at h
    split at h <;> (injection h with _ h2; subst h2; exact ⟨rfl, hne⟩)
  | succ n2 ih =>
    intro i s s2 evs0 evs h hne
    simp only [runIterStream] at h
    split at h
    · injection h with _ h2
      subst h2
      exact ⟨rfl, hne⟩
    · split at h
      next evs2 hstep =>
        injection h with _ h2
        subst h2
        exact ⟨rfl, hne⟩
      next evs2 hstep => exact absurd h (by simp)
      next s3 evs2 hstep =>
        have h1 := stepStream_head_preserved reg cb mh i (script i) s s3 evs2 hstep hne
        have h2 := ih (i + 1) s3 s2 _ evs h h1.2
        exact ⟨h2.1.trans h1.1, h2.2⟩

/-- C4 counterexample: with cap 2, a model-error iteration appends a
message and skips compaction, so an observation point shows 3 messages
— the history was not compacted to fit the cap after that append. -/
theorem compaction_skipped_on_error_append :
    (runJSONMsgs (runJSON [echoTool] none 2
        (AgentRequest.mk (Json.obj .nil) "" [userMsg "u1", userMsg "u2"] 1 0)
        (fun _ => .modelErr "boom"))).length = 3
    ∧ ¬ (runJSONMsgs (runJSON [echoTool] none 2
        (AgentRequest.mk (Json.obj .nil) "" [userMsg "u1", userMsg "u2"] 1 0)
        (fun _ => .modelErr "boom"))).length ≤ 2 := by
  decide

/-- C4 amended: compaction runs at the end of each iteration that
reaches the tool-result handling (error paths skip it); whenever it
runs over the cap it keeps the first message plus the newest
`cap - 1` messages; and the first message of the history equals the
first message supplied by the caller at every step boundary and at the
end of every run, in both runner variants. -/
theorem historyCompaction_spec :
    (∀ (mh : Nat) (msgs : List ModelMessage), 1 ≤ mh → mh < msgs.length →
      (trimHistory mh msgs).length = mh
      ∧ (trimHistory mh msgs).head? = msgs.head?
      ∧ (trimHistory mh msgs).drop 1 = msgs.drop (msgs.length - mh + 1))
    ∧ (∀ (reg : ToolRegistry) (cb : Option CB) (mr mh i : Nat)
        (turn : TurnOutcome) (s s2 : RunState),
        stepJSON reg cb mr mh i turn s = .next s2 → s.messages ≠ [] →
        s2.messages.head? = s.messages.head? ∧ s2.messages ≠ [])
    ∧ (∀ (reg : ToolRegistry) (cb : Option CB) (mh i : Nat)
        (turn : StreamTurn) (s s2 : StreamState) (evs : List AgentEvent),
        stepStream reg cb mh i turn s = .next s2 evs → s.messages ≠ [] →
        s2.messages.head? = s.messages.head? ∧ s2.messages ≠ [])
    ∧ (∀ (tools : ToolRegistry) (cb : Option CB) (mh : Nat) (req : AgentRequest)
        (script : Nat → TurnOutcome) (out : Option Json) (s2 : RunState),
        runJSON tools cb mh req script = .ok out s2 → req.messages ≠ [] →
        s2.messages.head? = req.messages.head?)
    ∧ (∀ (tools : ToolRegistry) (cb : Option CB) (mh : Nat) (req : AgentRequest)
        (script : Nat → StreamTurn) (evs : List AgentEvent) (s2 : StreamState),
        runStream tools cb mh req script = .closed evs s2 → req.messages ≠ [] →
        s2.messages.head? = req.messages.head?) := by
  refine ⟨trimHistory_spec, stepJSON_head_preserved, stepStream_head_preserved, ?_, ?_⟩
  · intro tools cb mh req script out s2 h hne
    unfold runJSON at h
    split at h
    next => exact absurd h (by simp)
    next =>
      split at h <;>
        (simp only [] at h
         split at h
         · exact absurd h (by simp)
         · rename_i s3 hiter
           cases h
           exact (runIterJSON_head_preserved _ cb req.maxRetries mh script
             req.maxIterations 0 _ _ hiter hne).1)
  · intro tools cb mh req script evs s2 h hne
    unfold runStream at h
    split at h
    next => exact absurd h (by simp)
    next =>
      split at h <;>
        (simp only [] at h
         exact (runIterStream_head_preserved _ cb mh script req.maxIterations
           req.maxIterations 0 _ s2 [] evs h hne).1)

/-- Start state for the compaction witness. -/
def witC4Start : RunState := RunState.mk [userMsg "hi"] 0 0 [] none []

/-- Post-step state for the compaction witness. -/
def witC4S2 : RunState :=
  RunState.mk
    [userMsg "hi",
     ModelMessage.mk .assistant "" (some (ToolCall.mk (some 0) "echo" .nil none)),
     ModelMessage.mk .tool ""
       (some (ToolCall.mk (some 0) "echo" .nil (some (String.mk ['{', '}']))))]
    0 1 [ToolCall.mk (some 0) "echo" .nil none] none []

/-- Witness for the amended C4 theorem at concrete inputs. -/
theorem historyCompaction_spec_witness :
    (trimHistory 2 [userMsg "a", userMsg "b", userMsg "c"]).length = 2
    ∧ witC4S2.messages.head? = witC4Start.messages.head? :=
  ⟨(historyCompaction_spec.1 2 [userMsg "a", userMsg "b", userMsg "c"]
      (by decide) (by decide)).1,
   (historyCompaction_spec.2.1 [echoTool] none 0 100 0 (.modelOk rawEcho)
      witC4Start witC4S2 (by decide) (by decide)).1⟩

/-! ## Tool-call id assignment (C3) -/

theorem unmarshalToolCall_id_none (buffer : List Char) (tc : ToolCall)
    (h : unmarshalToolCall buffer = .ok tc) : tc.id = none := by
  unfold unmarshalToolCall at h
  iterate 3 (all_goals try split at h)
  all_goals cases h <;> rfl

theorem parse_id_none (p : ToolCallJsonParser) (tc : ToolCall) (c : Bool)
    (h : p.parse = .ok (some tc) c) : tc.id = none := by
  unfold ToolCallJsonParser.parse at h
  iterate 6 (all_goals try split at h)
  all_goals
    cases h <;>
      first
        | rfl
        | exact unmarshalToolCall_id_none _ _ (by assumption)

theorem drainStream_id_none :
    ∀ (cs : List Chunk) (p : ToolCallJsonParser) (evs evs2 : List AgentEvent)
      (tc : ToolCall),
      drainStream cs p evs = .drained (some tc) evs2 → tc.id = none := by
  intro cs
  induction cs with
  | nil =>
    intro p evs evs2 tc h
    simp only [drainStream] at h
    exact absurd h (by simp)
  | cons c rest ih =>
    intro p evs evs2 tc h
    cases c with
    | reasoning str =>
      simp only [drainStream] at h
      exact ih _ _ _ _ h
    | usage =>
      simp only [drainStream] at h
      exact ih _ _ _ _ h
    | text str =>
      simp only [drainStream] at h
      split at h
      all_goals
        first
          | exact ih _ _ _ _ h
          | (cases h <;> exact parse_id_none _ _ _ (by assumption))

/-- The id discipline of the blocking runner's execution context: every
recorded tool-call carries an id below the freshness counter, and the
recorded ids are pairwise distinct. -/
def IdsOk (hist : List ToolCall) (n : Nat) : Prop :=
  (∀ tc ∈ hist, ∃ k, tc.id = some k ∧ k < n) ∧ (hist.map ToolCall.id).Nodup

theorem IdsOk_mono {hist : List ToolCall} {n n' : Nat} (hI : IdsOk hist n)
    (hle : n ≤ n') : IdsOk hist n' :=
  ⟨fun tc hm =>
      let ⟨k, hk1, hk2⟩ := hI.1 tc hm
      ⟨k, hk1, lt_of_lt_of_le hk2 hle⟩,
    hI.2⟩

theorem IdsOk_push {hist : List ToolCall} {n : Nat} (hI : IdsOk hist n)
    (nm : String) (inp : JsonFields) (outp : Option String) :
    IdsOk (hist ++ [ToolCall.mk (some n) nm inp outp]) (n + 1) := by
  constructor
  · intro tc hm
    rcases List.mem_append.mp hm with hm | hm
    · obtain ⟨k, hk1, hk2⟩ := hI.1 tc hm
      exact ⟨k, hk1, Nat.lt_succ_of_lt hk2⟩
    · rw [List.mem_singleton.mp hm]
      exact ⟨n, rfl, Nat.lt_succ_self n⟩
  · rw [List.map_append]
    apply List.Nodup.append hI.2 (List.nodup_singleton _)
    intro x hx hx2
    simp only [List.map_cons, List.map_nil, List.mem_singleton] at hx2
    subst hx2
    obtain ⟨tc, hm, hxeq⟩ := List.mem_map.mp hx
    obtain ⟨k, hk1, hk2⟩ := hI.1 tc hm
    rw [hk1] at hxeq
    injection hxeq with he
    omega

set_option maxHeartbeats 2000000 in
/-- One blocking iteration preserves the id discipline: the only history
append is a tool-call stamped with the current freshness counter, which
is bumped immediately after decoding. -/
theorem stepJSON_ids (reg : ToolRegistry) (cb : Option CB) (mr mh i : Nat)
    (turn : TurnOutcome) (s s2 : RunState)
    (h : stepJSON reg cb mr mh i turn s = .next s2)
    (hI : IdsOk s.history s.nextId) : IdsOk s2.history s2.nextId := by
  simp only [stepJSON, invokeHook] at h
  iterate 14 (all_goals try split at h)
  all_goals
    cases h <;>
      first
        | exact hI
        | exact IdsOk_mono hI (Nat.le_succ _)
        | exact IdsOk_push hI _ _ _

theorem runIterJSON_ids (reg : ToolRegistry) (cb : Option CB) (mr mh : Nat)
    (script : Nat → TurnOutcome) :
    ∀ (n i : Nat) (s s2 : RunState),
    runIterJSON reg cb mr mh script n i s = .ok s2 →
    IdsOk s.history s.nextId → IdsOk s2.history s2.nextId := by
  intro n
  induction n with
  | zero =>
    intro i s s2 h hI
    injection h with h2
    subst h2
    exact hI
  | succ n2 ih =>
    intro i s s2 h hI
    simp only [runIterJSON] at h
    split at h
    · injection h with h2
      subst h2
      exact hI
    · split at h
      next => exact absurd h (by simp)
      next s3 hstep =>
        exact ih (i + 1) s3 s2 h (stepJSON_ids reg cb mr mh i (script i) s s3 hstep hI)

set_option maxHeartbeats 2000000 in
/-- One streaming iteration keeps every recorded tool-call id empty: the
decoded tool-call is dispatched and recorded as-is, and the decoder only
ever yields id-less tool-calls. -/
theorem stepStream_ids_none (reg : ToolRegistry) (cb : Option CB) (mh i : Nat)
    (turn : StreamTurn) (s s2 : StreamState) (evs : List AgentEvent)
    (h : stepStream reg cb mh i turn s = .next s2 evs)
    (hH : ∀ tc ∈ s.history, tc.id = none) :
    ∀ tc ∈ s2.history, tc.id = none := by
  simp only [stepStream, invokeHookS] at h
  iterate 14 (all_goals try split at h)
  all_goals
    cases h <;>
      (intro tc' hmem
       simp only [StreamState.pushMsg, StreamState.pushHistory, StreamState.pushTrace,
         StreamState.setResults, StreamState.setMsgs, List.mem_append,
         List.mem_singleton] at hmem
       first
         | exact hH tc' hmem
         | (rcases hmem with hm | rfl
            · exact hH tc' hm
            · exact drainStream_id_none _ _ _ _ _ (by assumption)))

theorem runIterStream_ids_none (reg : ToolRegistry) (cb : Option CB) (mh : Nat)
    (script : Nat → StreamTurn) (maxIter : Nat) :
    ∀ (n i : Nat) (s s2 : StreamState) (evs0 evs : List AgentEvent),
    runIterStream reg cb mh script maxIter n i s evs0 = .closed evs s2 →
    (∀ tc ∈ s.history, tc.id = none) →
    ∀ tc ∈ s2.history, tc.id = none := by
  intro n
  induction n with
  | zero =>
    intro i s s2 evs0 evs h hH
    simp only [runIterStream] at h
    split at h <;> (injection h with _ h2; subst h2; exact hH)
  | succ n2 ih =>
    intro i s s2 evs0 evs h hH
    simp only [runIterStream] at h
    split at h
    · injection h with _ h2
      subst h2
      exact hH
    · split at h
      next evs2 hstep =>
        injection h with _ h2
        subst h2
        exact hH
      next evs2 hstep => exact absurd h (by simp)
      next s3 evs2 hstep =>
        exact ih (i + 1) s3 s2 _ evs h
          (stepStream_ids_none reg cb mh i (script i) s s3 evs2 hstep hH)

/-- C3 counterexample: a streaming run that dispatches two tool calls
(`echo`, then `complete_task`) records the ids `[none, none]` in the
execution context — the streaming runner never assigns a fresh
identifier, so the recorded ids are not unique. -/
theorem streaming_toolCall_ids_not_unique :
    ((streamHistory (runStream [echoTool] none 100
        (AgentRequest.mk (Json.obj .nil) "" [userMsg "hi"] 2 0)
        (fun i => if i = 0 then .chunks [.text rawEcho]
                  else .chunks [.text rawComplete]))).map ToolCall.id
      = [none, none])
    ∧ ¬ ((streamHistory (runStream [echoTool] none 100
        (AgentRequest.mk (Json.obj .nil) "" [userMsg "hi"] 2 0)
        (fun i => if i = 0 then .chunks [.text rawEcho]
                  else .chunks [.text rawComplete]))).map ToolCall.id).Nodup := by
  decide

/-- C3 amended: the blocking runner stamps every decoded tool-call with
a fresh identifier before dispatch, so the execution context's recorded
ids are all present and pairwise distinct; the streaming runner assigns
no identifier at all — its decoder only produces id-less tool-calls and
every recorded id is empty. -/
theorem toolCallId_assignment :
    (∀ (tools : ToolRegistry) (cb : Option CB) (mh : Nat) (req : AgentRequest)
        (script : Nat → TurnOutcome) (out : Option Json) (s2 : RunState),
        runJSON tools cb mh req script = .ok out s2 →
        (∀ tc ∈ s2.history, tc.id.isSome = true)
        ∧ (s2.history.map ToolCall.id).Nodup)
    ∧ (∀ (p : ToolCallJsonParser) (tc : ToolCall) (c : Bool),
        p.parse = .ok (some tc) c → tc.id = none)
    ∧ (∀ (tools : ToolRegistry) (cb : Option CB) (mh : Nat) (req : AgentRequest)
        (script : Nat → StreamTurn) (evs : List AgentEvent) (s2 : StreamState),
        runStream tools cb mh req script = .closed evs s2 →
        ∀ tc ∈ s2.history, tc.id = none) := by
  refine ⟨?_, parse_id_none, ?_⟩
  · intro tools cb mh req script out s2 h
    unfold runJSON at h
    split at h
    next => exact absurd h (by simp)
    next =>
      split at h <;>
        (simp only [] at h
         split at h
         · exact absurd h (by simp)
         · rename_i s3 hiter
           cases h
           have hI := runIterJSON_ids _ cb req.maxRetries mh script
             req.maxIterations 0 _ _ hiter
             ⟨fun tc hm => absurd hm (List.not_mem_nil tc), List.nodup_nil⟩
           refine ⟨fun tc hm => ?_, hI.2⟩
           obtain ⟨k, hk1, _⟩ := hI.1 tc hm
           rw [hk1]
           rfl)
  · intro tools cb mh req script evs s2 h
    unfold runStream at h
    split at h
    next => exact absurd h (by simp)
    next =>
      split at h <;>
        (simp only [] at h
         exact runIterStream_ids_none _ cb mh script req.maxIterations
           req.maxIterations 0 _ s2 [] evs h
           (fun tc hm => absurd hm (List.not_mem_nil tc)))

/-- Witness for the amended C3 theorem at a concrete decoder input. -/
theorem toolCallId_assignment_witness :
    (ToolCallJsonParser.new.append rawEcho).parse
        = .ok (some (ToolCall.mk none "echo" .nil none)) true
    ∧ (ToolCall.mk none "echo" .nil none).id = none :=
  ⟨by decide,
   toolCallId_assignment.2.1 (ToolCallJsonParser.new.append rawEcho)
     (ToolCall.mk none "echo" .nil none) true (by decide)⟩

/-! ## Consecutive-error counter and retry cap (C2) -/

set_option maxHeartbeats 2000000 in
/-- With `maxRetries = 0` a blocking iteration can never fail with the
retries-exceeded error: each retry check is guarded by `0 < maxRetries`. -/
theorem stepJSON_mr0_no_retries (reg : ToolRegistry) (cb : Option CB) (mh i : Nat)
    (turn : TurnOutcome) (s : RunState) (e : RunError)
    (h : stepJSON reg cb 0 mh i turn s = .fatal e) :
    ∀ k, e ≠ .retriesExceeded k := by
  simp only [stepJSON, invokeHook] at h
  iterate 14 (all_goals try split at h)
  all_goals
    cases h <;>
      (intro k hk
       first
         | exact Nat.lt_irrefl 0 (And.left (by assumption))
         | cases hk)

theorem runIterJSON_mr0_no_retries (reg : ToolRegistry) (cb : Option CB) (mh : Nat)
    (script : Nat → TurnOutcome) :
    ∀ (n i : Nat) (s : RunState) (k : Nat),
    runIterJSON reg cb 0 mh script n i s ≠ .error (.retriesExceeded k) := by
  intro n
  induction n with
  | zero =>
    intro i s k h
    simp only [runIterJSON] at h
    cases h
  | succ n2 ih =>
    intro i s k h
    simp only [runIterJSON] at h
    split at h
    · cases h
    · split at h
      next e2 hstep =>
        injection h with he
        subst he
        exact stepJSON_mr0_no_retries reg cb mh i (script i) s _ hstep k rfl
      next s3 hstep => exact ih (i + 1) s3 k h

/-- C2 counterexample: the streaming runner has no consecutive-error
counter at all — with `maxRetries = 1` it tolerates three consecutive
model failures and runs to the max-iterations event instead of failing
fast with a retries-exceeded error. -/
theorem retryCap_not_enforced_in_streaming :
    streamEvents (runStream [] none 100
        (AgentRequest.mk (Json.obj .nil) "" [userMsg "hi"] 3 1)
        (fun _ => .streamErr "boom"))
      = some [.errorEv (.maxIterations 3)] := by
  decide

/-- C2 amended: in the BLOCKING runner the consecutive-error counter
increments on model failure, tool-call-parse failure and tool-execution
failure, resets on successful tool execution, is untouched by a
tool-not-found lookup, and the run fails fast with retries-exceeded
exactly when `maxRetries > 0` and the incremented counter exceeds it;
with `maxRetries = 0` the blocking run can never fail with
retries-exceeded; the STREAMING runner ignores `maxRetries` entirely. -/
theorem consecutiveErrors_spec :
    (∀ (reg : ToolRegistry) (cb : Option CB) (mr mh i : Nat) (msg : String)
        (s : RunState), hookOk cb (fun c => c.beforeModel i) →
        (¬ (0 < mr ∧ mr < s.consecutiveErrors + 1) →
          ∃ s2, stepJSON reg cb mr mh i (.modelErr msg) s = .next s2
            ∧ s2.consecutiveErrors = s.consecutiveErrors + 1)
        ∧ ((0 < mr ∧ mr < s.consecutiveErrors + 1) →
          stepJSON reg cb mr mh i (.modelErr msg) s
            = .fatal (.retriesExceeded mr)))
    ∧ (∀ (reg : ToolRegistry) (cb : Option CB) (mr mh i : Nat) (raw : List Char)
        (s : RunState) (e : String),
        unmarshalToolCall raw = .error e →
        hookOk cb (fun c => c.beforeModel i) →
        hookOk cb (fun c => c.afterModel i) →
        ¬ (0 < mr ∧ mr < s.consecutiveErrors + 1) →
        ∃ s2, stepJSON reg cb mr mh i (.modelOk raw) s = .next s2
          ∧ s2.consecutiveErrors = s.consecutiveErrors + 1)
    ∧ (∀ (reg : ToolRegistry) (cb : Option CB) (mr mh i : Nat) (raw : List Char)
        (s : RunState) (tc0 : ToolCall) (tool : MTool) (e : String),
        unmarshalToolCall raw = .ok tc0 →
        getTool reg tc0.name = .ok tool →
        tool.run tc0.input = .error e →
        hookOk cb (fun c => c.beforeModel i) →
        hookOk cb (fun c => c.afterModel i) →
        hookOk cb (fun c => c.beforeToolCall tc0.name tc0.input) →
        ¬ (0 < mr ∧ mr < s.consecutiveErrors + 1) →
        ∃ s2, stepJSON reg cb mr mh i (.modelOk raw) s = .next s2
          ∧ s2.consecutiveErrors = s.consecutiveErrors + 1)
    ∧ (∀ (reg : ToolRegistry) (cb : Option CB) (mr mh i : Nat) (raw : List Char)
        (s : RunState) (tc0 : ToolCall) (tool : MTool) (out : Option Json),
        unmarshalToolCall raw = .ok tc0 →
        getTool reg tc0.name = .ok tool →
        tool.run tc0.input = .ok out →
        hookOk cb (fun c => c.beforeModel i) →
        hookOk cb (fun c => c.afterModel i) →
        hookOk cb (fun c => c.beforeToolCall tc0.name tc0.input) →
        hookOk cb (fun c => c.afterToolCall tc0.name tc0.input out) →
        ∃ s2, stepJSON reg cb mr mh i (.modelOk raw) s = .next s2
          ∧ s2.consecutiveErrors = 0)
    ∧ (∀ (reg : ToolRegistry) (cb : Option CB) (mr mh i : Nat) (raw : List Char)
        (s : RunState) (tc0 : ToolCall) (err : String),
        unmarshalToolCall raw = .ok tc0 →
        getTool reg tc0.name = .error err →
        hookOk cb (fun c => c.beforeModel i) →
        hookOk cb (fun c => c.afterModel i) →
        ∃ s2, stepJSON reg cb mr mh i (.modelOk raw) s = .next s2
          ∧ s2.consecutiveErrors = s.consecutiveErrors)
    ∧ (∀ (tools : ToolRegistry) (cb : Option CB) (mh : Nat) (sch : Json)
        (u : String) (msgs : List ModelMessage) (mi : Nat)
        (script : Nat → TurnOutcome) (k : Nat),
        runJSON tools cb mh (AgentRequest.mk sch u msgs mi 0) script
          ≠ .fatal (.retriesExceeded k))
    ∧ (∀ (tools : ToolRegistry) (cb : Option CB) (mh : Nat) (sch : Json)
        (u : String) (msgs : List ModelMessage) (mi mr mr' : Nat)
        (script : Nat → StreamTurn),
        runStream tools cb mh (AgentRequest.mk sch u msgs mi mr) script
          = runStream tools cb mh (AgentRequest.mk sch u msgs mi mr') script) := by
  refine ⟨?_, ?_, ?_, ?_, ?_, ?_, ?_⟩
  · intro reg cb mr mh i msg s hbm
    constructor
    · intro hguard
      cases cb with
      | none =>
        simp only [stepJSON, invokeHook]
        rw [if_neg hguard]
        exact ⟨_, rfl, rfl⟩
      | some c =>
        simp only [stepJSON, invokeHook]
        rw [show c.beforeModel i = Except.ok () from hbm c rfl]
        simp only [RunState.pushTrace]
        rw [if_neg hguard]
        exact ⟨_, rfl, rfl⟩
    · intro hguard
      cases cb with
      | none =>
        simp only [stepJSON, invokeHook]
        rw [if_pos hguard]
      | some c =>
        simp only [stepJSON, invokeHook]
        rw [show c.beforeModel i = Except.ok () from hbm c rfl]
        simp only [RunState.pushTrace]
        rw [if_pos hguard]
  · intro reg cb mr mh i raw s e hun hbm ham hguard
    cases cb with
    | none =>
      simp only [stepJSON, invokeHook]
      rw [hun]
      simp only []
      rw [if_neg hguard]
      exact ⟨_, rfl, rfl⟩
    | some c =>
      simp only [stepJSON, invokeHook]
      rw [show c.beforeModel i = Except.ok () from hbm c rfl]
      simp only []
      rw [show c.afterModel i = Except.ok () from ham c rfl]
      simp only []
      rw [hun]
      simp only [RunState.pushTrace]
      rw [if_neg hguard]
      exact ⟨_, rfl, rfl⟩
  · intro reg cb mr mh i raw s tc0 tool e hun hget hrun hbm ham hbt hguard
    cases cb with
    | none =>
      simp only [stepJSON, invokeHook]
      rw [hun]
      simp only []
      rw [hget]
      simp only []
      rw [hrun]
      simp only [RunState.pushMsg, RunState.bumpId, RunState.pushHistory]
      rw [if_neg hguard]
      exact ⟨_, rfl, rfl⟩
    | some c =>
      simp only [stepJSON, invokeHook]
      rw [show c.beforeModel i = Except.ok () from hbm c rfl]
      simp only []
      rw [show c.afterModel i = Except.ok () from ham c rfl]
      simp only []
      rw [hun]
      simp only []
      rw [hget]
      simp only []
      rw [show c.beforeToolCall tc0.name tc0.input = Except.ok () from hbt c rfl]
      simp only []
      rw [hrun]
      simp only [RunState.pushTrace, RunState.pushMsg, RunState.bumpId,
        RunState.pushHistory]
      rw [if_neg hguard]
      exact ⟨_, rfl, rfl⟩
  · intro reg cb mr mh i raw s tc0 tool out hun hget hrun hbm ham hbt hat
    cases cb with
    | none =>
      simp only [stepJSON, invokeHook]
      rw [hun]
      simp only []
      rw [hget]
      simp only []
      rw [hrun]
      simp only []
      by_cases hname : tool.name = CompleteTaskToolName
      · rw [if_pos hname]
        exact ⟨_, rfl, rfl⟩
      · rw [if_neg hname]
        cases out with
        | none => exact ⟨_, rfl, rfl⟩
        | some v => exact ⟨_, rfl, rfl⟩
    | some c =>
      simp only [stepJSON, invokeHook]
      rw [show c.beforeModel i = Except.ok () from hbm c rfl]
      simp only []
      rw [show c.afterModel i = Except.ok () from ham c rfl]
      simp only []
      rw [hun]
      simp only []
      rw [hget]
      simp only []
      rw [show c.beforeToolCall tc0.name tc0.input = Except.ok () from hbt c rfl]
      simp only []
      rw [hrun]
      simp only []
      rw [show c.afterToolCall tc0.name tc0.input out = Except.ok () from hat c rfl]
      simp only []
      by_cases hname : tool.name = CompleteTaskToolName
      · rw [if_pos hname]
        exact ⟨_, rfl, rfl⟩
      · rw [if_neg hname]
        cases out with
        | none => exact ⟨_, rfl, rfl⟩
        | some v => exact ⟨_, rfl, rfl⟩
  · intro reg cb mr mh i raw s tc0 err hun hget hbm ham
    cases cb with
    | none =>
      simp only [stepJSON, invokeHook]
      rw [hun]
      simp only []
      rw [hget]
      exact ⟨_, rfl, rfl⟩
    | some c =>
      simp only [stepJSON, invokeHook]
      rw [show c.beforeModel i = Except.ok () from hbm c rfl]
      simp only []
      rw [show c.afterModel i = Except.ok () from ham c rfl]
      simp only []
      rw [hun]
      simp only []
      rw [hget]
      exact ⟨_, rfl, rfl⟩
  · intro tools cb mh sch u msgs mi script k h
    unfold runJSON at h
    split at h
    next => cases h
    next =>
      split at h <;>
        (simp only [] at h
         split at h
         · rename_i e2 hiter
           injection h with he
           subst he
           exact runIterJSON_mr0_no_retries _ cb mh script mi 0 _ k hiter
         · cases h)
  · intro tools cb mh sch u msgs mi mr mr' script
    rfl

/-- Witness for the amended C2 theorem at concrete inputs. -/
theorem consecutiveErrors_spec_witness :
    ∃ s2, stepJSON [] none 1 100 0 (.modelErr "boom")
        (RunState.mk [userMsg "hi"] 0 0 [] none []) = .next s2
      ∧ s2.consecutiveErrors
        = (RunState.mk [userMsg "hi"] 0 0 [] none []).consecutiveErrors + 1 :=
  (consecutiveErrors_spec.1 [] none 1 100 0 "boom"
      (RunState.mk [userMsg "hi"] 0 0 [] none [])
      (fun c h => nomatch h)).1 (by decide)

/-! ## Max-iterations exit (C1) -/

/-- C1: evaluating both runners at a run whose loop exhausts
max-iterations without `complete_task`.  The blocking runner returns NO
error and a nil output (the loop falls through to `return resp, nil`
with no max-iterations check, although `ErrMaxIterations` is documented
as "returned when max iterations is reached without completion"); the
streaming runner does emit the max-iterations error event. -/
theorem maxIterations_exit_behaviour :
    runJSONIsError (runJSON [echoTool] none 100 (req1 1 0)
        (fun _ => .modelOk rawEcho)) = false
    ∧ runJSONOutput (runJSON [echoTool] none 100 (req1 1 0)
        (fun _ => .modelOk rawEcho)) = some none
    ∧ streamEvents (runStream [echoTool] none 100 (req1 1 0)
        (fun _ => .chunks [.text rawEcho]))
      = some [.errorEv (.maxIterations 1)] := by
  decide
